import Mathlib

/-!
Verification development for the type-elaboration core of the stc TypeScript
type checker (crates/stc_ts_file_analyzer/src/analyzer/convert/mod.rs).

The Rust validators are shallowly embedded as total state-passing functions.
The analyzer state (`St`) carries the lexical scope chain, the diagnostic
sink, the builtin-mode flag and the elaboration trace; machinery that the
claims do not touch (caching marks, tracing output, debug assertions) is
omitted.  The `trace` field is a modelling instrument: every type-syntax
node is appended to it when its elaboration completes, so the trace records
which nodes were elaborated and, for sibling sub-expressions, in which
order.  Helpers whose Rust sources live outside the two provided files are
modelled from the specification and are marked as such in their doc
comments.
-/

namespace Stc

/-- Source positions.  Spans never influence structural type equality, so a
plain numeric stand-in suffices; `with_ctxt(SyntaxContext::empty())` from the
source is the identity here. -/
abbrev Span := Nat

/-- Keyword kinds of `swc_ecma_ast::TsKeywordTypeKind` (the subset plus
`intrinsic` that the embedded fragment uses, with the remaining kinds kept
for completeness). -/
inductive KeywordKind where
  | any | unknown | string | number | boolean | bigint | symbol
  | object | void | undefined | null | never | intrinsic
  deriving DecidableEq, Repr

/-- An identifier with its span (`RIdent`; the `Id` used for lookups keeps
only the symbol). -/
structure RIdent where
  span : Span
  sym : String
  deriving DecidableEq, Repr

/-- Entity names appearing in type references (`RTsEntityName`). -/
inductive REntityName where
  | ident (i : RIdent)
  | qualified (left : REntityName) (right : RIdent)
  deriving DecidableEq, Repr

/-- The common metadata record carried by every semantic type value
(`CommonTypeMetadata` plus the variant-specific wrappers, flattened to the
flags the embedded fragment reads or writes). -/
structure Meta where
  contains_infer_type : Bool := false
  implicit : Bool := false
  prevent_generalization : Bool := false
  prevent_tuple_to_array : Bool := false
  no_expand : Bool := false
  deriving DecidableEq, Repr

/-- Diagnostics (`stc_ts_errors::Error` variants reachable from the embedded
fragment). -/
inductive Diag where
  | duplicateName (span : Span) (name : String)
  | intrinsicIsBuiltinOnly (span : Span)
  | noSuchType (span : Span) (name : String)
  | noSuchTypeButVarExists (span : Span) (name : String)
  | unresolvedTypeRef (span : Span) (name : String)
  | staticMemberCannotUseTypeParamOfClass (span : Span)
  deriving DecidableEq, Repr

/-- Scope kinds (`ScopeKind`): the fragment only discriminates class scopes
and static-method scopes, the rest are carried for fidelity. -/
inductive ScopeKind where
  | module | flow | fn | classScope | method (isStatic : Bool)
  deriving DecidableEq, Repr

mutual

/-- Surface type syntax (`RTsType`), restricted to the node shapes the
claims exercise: keywords, array syntax, tuples, unions, conditional types,
parenthesized types, type references with optional instantiation arguments,
and `infer` captures. -/
inductive RTsType where
  | keyword (span : Span) (kind : KeywordKind)
  | array (span : Span) (elem : RTsType)
  | tuple (span : Span) (elems : List RTsTupleElement)
  | union (span : Span) (types : List RTsType)
  | conditional (span : Span) (check ext tru fls : RTsType)
  | paren (span : Span) (inner : RTsType)
  | typeRef (span : Span) (name : REntityName) (args : Option RInst)
  | infer (span : Span) (tp : RTsTypeParam)

/-- A tuple member (`RTsTupleElement`). -/
inductive RTsTupleElement where
  | mk (span : Span) (label : Option String) (ty : RTsType)

/-- A type-parameter syntax node (`RTsTypeParam`). -/
inductive RTsTypeParam where
  | mk (span : Span) (name : RIdent) (constraint : Option RTsType)
       (default : Option RTsType)

/-- Type arguments of a reference (`RTsTypeParamInstantiation`). -/
inductive RInst where
  | mk (span : Span) (params : List RTsType)

end

/-- A type-parameter declaration list (`RTsTypeParamDecl`). -/
structure RTsTypeParamDecl where
  span : Span
  params : List RTsTypeParam

mutual

/-- The semantic type value (`stc_ts_types::Type`), restricted to the
variants the embedded validators produce.  `arc` models `Type::Arc`, the
frozen/"cheap" shareable wrapper produced by finalization. -/
inductive Ty where
  | keyword (span : Span) (kind : KeywordKind) (md : Meta)
  | array (span : Span) (elem : Ty) (md : Meta)
  | tuple (span : Span) (elems : List TupleElem) (md : Meta)
  | union (span : Span) (types : List Ty) (md : Meta)
  | conditional (span : Span) (check ext tru fls : Ty) (md : Meta)
  | infer (span : Span) (tp : TyParam) (md : Meta)
  | param (tp : TyParam)
  | ref (span : Span) (ctxt : Nat) (name : REntityName)
        (args : Option TyParamInst) (md : Meta)
  | alias (span : Span) (ty : Ty) (typeParams : Option TyParamDecl) (md : Meta)
  | intrinsicKw (span : Span) (kind : String) (args : TyParamInst) (md : Meta)
  | arc (ty : Ty)

/-- A semantic tuple member (`TupleElement`). -/
inductive TupleElem where
  | mk (span : Span) (label : Option String) (ty : Ty)

/-- A semantic type parameter (`TypeParam`). -/
inductive TyParam where
  | mk (span : Span) (name : String) (constraint : Option Ty)
       (default : Option Ty) (md : Meta)

/-- Semantic type arguments (`TypeParamInstantiation`). -/
inductive TyParamInst where
  | mk (span : Span) (params : List Ty)

/-- A validated type-parameter declaration (`TypeParamDecl`). -/
inductive TyParamDecl where
  | mk (span : Span) (params : List TyParam)

end

/-- Name of a semantic type parameter. -/
def TyParam.name : TyParam → String
  | .mk _ n _ _ _ => n

/-- Constraint of a semantic type parameter. -/
def TyParam.constraint : TyParam → Option Ty
  | .mk _ _ c _ _ => c

/-- Default of a semantic type parameter. -/
def TyParam.default : TyParam → Option Ty
  | .mk _ _ _ d _ => d

/-- Span of a semantic type parameter. -/
def TyParam.span : TyParam → Span
  | .mk sp _ _ _ _ => sp

/-- Argument list of a semantic instantiation. -/
def TyParamInst.params : TyParamInst → List Ty
  | .mk _ ps => ps

/-- Parameters of a validated declaration list. -/
def TyParamDecl.params : TyParamDecl → List TyParam
  | .mk _ ps => ps

/-- Metadata of a semantic type parameter. -/
def TyParam.md : TyParam → Meta
  | .mk _ _ _ _ m => m

/-- Entity-name equality as used by structural type comparison: spans are
ignored, only the symbols matter. -/
def nameEq : REntityName → REntityName → Bool
  | .ident i, .ident i' => i.sym == i'.sym
  | .qualified l r, .qualified l' r' => nameEq l l' && r.sym == r'.sym
  | _, _ => false

mutual

/-- Modelled from the spec: structural equality of semantic type values
(the "structurally comparable semantic type model", "set semantics over
structural equality"; the Rust `TypeEq` derive is not among the provided
sources).  Finalization wrappers (`arc`), spans and the metadata/caching
flags do not affect structural identity. -/
def typeEq : Ty → Ty → Bool
  | .arc a, b => typeEq a b
  | a, .arc b => typeEq a b
  | .keyword _ k _, .keyword _ k' _ => k == k'
  | .array _ e _, .array _ e' _ => typeEq e e'
  | .tuple _ es _, .tuple _ es' _ => elemsEq es es'
  | .union _ ts _, .union _ ts' _ => listEq ts ts'
  | .conditional _ c e t f _, .conditional _ c' e' t' f' _ =>
      typeEq c c' && typeEq e e' && typeEq t t' && typeEq f f'
  | .infer _ p _, .infer _ p' _ => paramEq p p'
  | .param p, .param p' => paramEq p p'
  | .ref _ c n a _, .ref _ c' n' a' _ => c == c' && nameEq n n' && optInstEq a a'
  | .alias _ t d _, .alias _ t' d' _ => typeEq t t' && optDeclEq d d'
  | .intrinsicKw _ k a _, .intrinsicKw _ k' a' _ => k == k' && instEq a a'
  | _, _ => false

/-- Pointwise structural equality of type lists. -/
def listEq : List Ty → List Ty → Bool
  | [], [] => true
  | t :: ts, t' :: ts' => typeEq t t' && listEq ts ts'
  | _, _ => false

/-- Structural equality of tuple members (labels compared, spans ignored). -/
def elemsEq : List TupleElem → List TupleElem → Bool
  | [], [] => true
  | .mk _ l t :: es, .mk _ l' t' :: es' => l == l' && typeEq t t' && elemsEq es es'
  | _, _ => false

/-- Structural equality of type parameters. -/
def paramEq : TyParam → TyParam → Bool
  | .mk _ n c d _, .mk _ n' c' d' _ => n == n' && optTyEq c c' && optTyEq d d'

/-- Structural equality of optional types. -/
def optTyEq : Option Ty → Option Ty → Bool
  | none, none => true
  | some t, some t' => typeEq t t'
  | _, _ => false

/-- Structural equality of instantiations. -/
def instEq : TyParamInst → TyParamInst → Bool
  | .mk _ ps, .mk _ ps' => listEq ps ps'

/-- Structural equality of optional instantiations. -/
def optInstEq : Option TyParamInst → Option TyParamInst → Bool
  | none, none => true
  | some a, some a' => instEq a a'
  | _, _ => false

/-- Structural equality of optional parameter declarations. -/
def optDeclEq : Option TyParamDecl → Option TyParamDecl → Bool
  | none, none => true
  | some (.mk _ ps), some (.mk _ ps') => paramsEq ps ps'
  | _, _ => false

/-- Pointwise structural equality of parameter lists. -/
def paramsEq : List TyParam → List TyParam → Bool
  | [], [] => true
  | p :: ps, p' :: ps' => paramEq p p' && paramsEq ps ps'
  | _, _ => false

end

/-- Strip finalization wrappers (`Type::normalize`). -/
def normalize : Ty → Ty
  | .arc t => normalize t
  | t => t

/-- Finalize a value (`Type::cheap` / `freezed()`): already-frozen values are
returned unchanged, others are wrapped in the shareable `arc` form. -/
def cheap : Ty → Ty
  | .arc t => .arc t
  | t => .arc t

/-- Whether a value is finalized (frozen/"cheap"). -/
def isCheap : Ty → Bool
  | .arc _ => true
  | _ => false

/-- Freezing of an instantiation (`.freezed()` on the validated type
arguments): every argument type becomes cheap. -/
def freezeInst : TyParamInst → TyParamInst
  | .mk sp ps => .mk sp (ps.map cheap)

/-- Freezing of a resolved type parameter (`params.make_clone_cheap()`):
constraint and default become cheap. -/
def freezeParam : TyParam → TyParam
  | .mk sp n c d m => .mk sp n (c.map cheap) (d.map cheap) m

mutual

/-- Modelled from the spec: `crate::util::contains_infer_type` (source not
among the provided files); per the data model every value carries "a flag
marking whether it (transitively) contains an infer-capture", so the check
holds when the value is an infer-capture itself, carries the metadata flag,
or transitively contains such a value. -/
def containsInferType : Ty → Bool
  | .arc t => containsInferType t
  | .keyword _ _ m => m.contains_infer_type
  | .array _ e m => m.contains_infer_type || containsInferType e
  | .tuple _ es m => m.contains_infer_type || elemsContain es
  | .union _ ts m => m.contains_infer_type || listContain ts
  | .conditional _ c e t f m =>
      m.contains_infer_type || containsInferType c || containsInferType e ||
      containsInferType t || containsInferType f
  | .infer _ _ _ => true
  | .param p => paramContains p
  | .ref _ _ _ a m => m.contains_infer_type || optInstContain a
  | .alias _ t d m => m.contains_infer_type || containsInferType t || optDeclContain d
  | .intrinsicKw _ _ a m => m.contains_infer_type || instContain a

/-- Infer-capture containment over a list of types. -/
def listContain : List Ty → Bool
  | [] => false
  | t :: ts => containsInferType t || listContain ts

/-- Infer-capture containment over tuple members. -/
def elemsContain : List TupleElem → Bool
  | [] => false
  | .mk _ _ t :: es => containsInferType t || elemsContain es

/-- Infer-capture containment over optional types. -/
def optContain : Option Ty → Bool
  | none => false
  | some t => containsInferType t

/-- Infer-capture containment of a type parameter. -/
def paramContains : TyParam → Bool
  | .mk _ _ c d m => m.contains_infer_type || optContain c || optContain d

/-- Infer-capture containment of an instantiation. -/
def instContain : TyParamInst → Bool
  | .mk _ ps => listContain ps

/-- Infer-capture containment of an optional instantiation. -/
def optInstContain : Option TyParamInst → Bool
  | none => false
  | some a => instContain a

/-- Infer-capture containment of an optional declaration list. -/
def optDeclContain : Option TyParamDecl → Bool
  | none => false
  | some (.mk _ ps) => paramsContain ps

/-- Infer-capture containment of a parameter list. -/
def paramsContain : List TyParam → Bool
  | [] => false
  | p :: ps => paramContains p || paramsContain ps

end

/-- Modelled from the spec: `Vec::dedup_type` from `stc_utils` (source not
among the provided files); "after elaborating all members, structurally
deduplicate them (set semantics over structural equality) — union membership
order is otherwise preserved (insertion order, pre-dedup first-occurrence
order)". -/
def dedupType : List Ty → List Ty
  | [] => []
  | t :: ts => t :: dedupType (ts.filter (fun u => !typeEq t u))
termination_by l => l.length
decreasing_by
  simp only [List.length_cons]
  exact Nat.lt_succ_of_le (List.length_filter_le _ _)

/-- Modelled from the spec: the dispatcher's fix-up pass (`.fixed()` from
`stc_ts_type_ops::Fix`, source not among the provided files).  The spec
prescribes no normalization for elaborated unions beyond the structural
deduplication already performed inside the union validator, so the pass is
the identity. -/
def fixTy (t : Ty) : Ty := t

mutual

/-- Modelled from the spec: the substitution step of `expand_type_params`
("build a mapping from parameter name to its just-elaborated placeholder
type, then re-expand every parameter's constraint/default against that
mapping"); a type-parameter occurrence is replaced by its mapping in one
pass, without re-substitution inside the replacement. -/
def substTy (m : List (String × Ty)) : Ty → Ty
  | .param p =>
      match m.find? (fun q => q.1 == TyParam.name p) with
      | some q => q.2
      | none => .param p
  | .arc t => .arc (substTy m t)
  | .keyword sp k md => .keyword sp k md
  | .array sp e md => .array sp (substTy m e) md
  | .tuple sp es md => .tuple sp (substElems m es) md
  | .union sp ts md => .union sp (substList m ts) md
  | .conditional sp c e t f md =>
      .conditional sp (substTy m c) (substTy m e) (substTy m t) (substTy m f) md
  | .infer sp p md => .infer sp p md
  | .ref sp c n a md => .ref sp c n a md
  | .alias sp t d md => .alias sp (substTy m t) d md
  | .intrinsicKw sp k a md => .intrinsicKw sp k a md

/-- Substitution over a list of types. -/
def substList (m : List (String × Ty)) : List Ty → List Ty
  | [] => []
  | t :: ts => substTy m t :: substList m ts

/-- Substitution over tuple members. -/
def substElems (m : List (String × Ty)) : List TupleElem → List TupleElem
  | [] => []
  | .mk sp l t :: es => .mk sp l (substTy m t) :: substElems m es

end

/-- The context record threaded through every validation call (`Ctx`,
restricted to the fields the embedded fragment reads). -/
structure Ctx where
  module_id : Nat := 0
  in_actual_type : Bool := false
  is_not_topmost_type : Bool := false
  deriving DecidableEq, Repr

/-- One lexical scope frame (`Scope`): kind tag, the type-parameter names the
frame is currently declaring, declared types (most recent first) and
variable bindings. -/
structure Frame where
  kind : ScopeKind
  declaringTypeParams : List String := []
  types : List (String × Ty) := []
  vars : List String := []

/-- The analyzer state: the scope chain (innermost frame first), the
diagnostic sink (`storage`), the elaboration trace (a modelling instrument:
a node is appended when its elaboration completes), the builtin-library
mode flag, and the recorded unmergeable-declaration spans. -/
structure St where
  scope : List Frame := []
  diags : List Diag := []
  trace : List RTsType := []
  is_builtin : Bool := false
  unmergeable : List (String × Span) := []

/-- Append a diagnostic to the sink (`storage.report`). -/
def report (s : St) (d : Diag) : St :=
  { s with diags := s.diags ++ [d] }

/-- Record a completed elaboration in the trace. -/
def addTrace (s : St) (t : RTsType) : St :=
  { s with trace := s.trace ++ [t] }

/-- Register a type under a name in the innermost scope frame
(modelled from the spec: `register_type`, "results are registered back into
Scope & Registry"; a name may accumulate several entries, most recent
first). -/
def registerType (s : St) (name : String) (ty : Ty) : St :=
  match s.scope with
  | [] => s
  | f :: rest => { s with scope := { f with types := (name, ty) :: f.types } :: rest }

/-- Enter a child scope (`with_child`): push a fresh frame. -/
def pushScope (s : St) (k : ScopeKind) : St :=
  { s with scope := { kind := k } :: s.scope }

/-- Leave a child scope: drop the innermost frame. -/
def popScope (s : St) : St :=
  { s with scope := s.scope.drop 1 }

/-- Modelled from the spec: `find_type` — keyed lookup of a name through the
lexical scope chain (innermost frame first, most recent entry first);
`none` when no frame declares the name. -/
def findType (s : St) (_ctxt : Nat) (name : String) : Option (List Ty) :=
  let hits := s.scope.foldr
    (fun f acc => f.types.filterMap (fun p => if p.1 == name then some p.2 else none) ++ acc) []
  if hits.isEmpty then none else some hits


/-- Whether a variable with the given name exists somewhere in scope
(modelled from the spec: `scope.get_var`, lookup of variable bindings in the
scope chain). -/
def getVar (s : St) (name : String) : Bool :=
  s.scope.any (fun f => f.vars.contains name)

/-- Whether some scope on the chain is a static method of a class that is
currently declaring the given type-parameter name
(`report_error_for_type_param_usages_in_static_members`). -/
def staticFires : List Frame → String → Bool
  | [], _ => false
  | f :: rest, id =>
      (match rest with
       | [] => false
       | parent :: _ =>
           parent.kind == .classScope &&
           parent.declaringTypeParams.contains id &&
           (match f.kind with
            | .method true => true
            | _ => false)) ||
      staticFires rest id

/-- Report the static-member type-parameter misuse when it applies. -/
def staticCheck (s : St) (i : RIdent) : St :=
  if staticFires s.scope i.sym then
    report s (.staticMemberCannotUseTypeParamOfClass i.span)
  else s

/-- Modelled from the spec: `report_error_for_unresolve_type` (source not
among the provided files) — "otherwise emit a generic unresolved-reference
diagnostic"; the diagnostic is emitted only when the identifier does not
resolve to any type in scope.  Resolution of qualified names is outside the
embedded fragment and reports nothing here. -/
def reportUnresolve (s : St) (ctx : Ctx) (span : Span) (name : REntityName) : St :=
  match name with
  | .ident i =>
      if (findType s ctx.module_id i.sym).isNone then
        report s (.unresolvedTypeRef span i.sym)
      else s
  | .qualified _ _ => s

/-- The "any" placeholder (`Type::any(span, Default::default())`). -/
def tyAny (sp : Span) : Ty := .keyword sp .any {}

/-- Metadata of an elaborated tuple type (`prevent_tuple_to_array` set). -/
def tupleMd : Meta := { prevent_tuple_to_array := true }

/-- Metadata of an elaborated infer capture (`contains_infer_type` set). -/
def inferMd : Meta := { contains_infer_type := true }

/-- The scan the reference validator performs over the types found for a
name: accumulate infer-capture containment and stop at the first entry
whose normal form is a type parameter (which is returned as-is). -/
def scanParams : List Ty → Bool → Option Ty × Bool
  | [], ci => (none, ci)
  | t :: ts, ci =>
      let ci := ci || containsInferType t
      match normalize t with
      | .param _ => (some t, ci)
      | _ => scanParams ts ci

/-- The tail of the reference validator: the generic unresolved-reference
diagnostic (suppressed when the more specific one was already reported) and
the dangling named-reference result. -/
def refFallback (s : St) (ctx : Ctx) (span : Span) (name : REntityName)
    (targs : Option TyParamInst) (ci reported : Bool) : St × Ty :=
  let s := if !s.is_builtin && !reported then reportUnresolve s ctx span name else s
  (s, Ty.ref span ctx.module_id name targs { contains_infer_type := ci })

/-- The identifier branch of the reference validator: static-member check,
scope lookup (returning a found type-parameter placeholder directly), and
the variable-of-same-name diagnostic for unresolved names. -/
def identRefBranch (s : St) (ctx : Ctx) (span : Span) (i : RIdent)
    (targs : Option TyParamInst) : St × Ty :=
  let s1 := staticCheck s i
  match findType s1 ctx.module_id i.sym with
  | some tys =>
      let scanned := scanParams tys false
      match scanned.1 with
      | some t => (s1, t)
      | none =>
          let found := !tys.isEmpty
          if !s1.is_builtin && !found && ctx.in_actual_type && getVar s1 i.sym then
            refFallback (report s1 (.noSuchTypeButVarExists span i.sym)) ctx span
              (.ident i) targs scanned.2 true
          else
            refFallback s1 ctx span (.ident i) targs scanned.2 false
  | none =>
      if !s1.is_builtin && ctx.in_actual_type && getVar s1 i.sym then
        refFallback (report s1 (.noSuchTypeButVarExists span i.sym)) ctx span
          (.ident i) targs false true
      else
        refFallback s1 ctx span (.ident i) targs false false



/-- The dispatch of the reference validator after its type arguments have
been validated and frozen: an identifier `Array` with exactly one argument
becomes the Array variant immediately; other identifiers go through scope
resolution; qualified names fall through to the dangling-reference tail. -/
def refDispatch (s : St) (ctx : Ctx) (span : Span) (name : REntityName)
    (targs : Option TyParamInst) : St × Ty :=
  match name, targs with
  | .ident i, some ti =>
      if i.sym == "Array" then
        match ti.params with
        | [elemT] => (s, Ty.array span elemT {})
        | _ => refFallback s ctx span name targs false false
      else identRefBranch s ctx span i targs
  | .ident i, none => identRefBranch s ctx span i none
  | .qualified _ _, _ => refFallback s ctx span name targs false false

mutual

/-- The `RTsType` validator (dispatch engine).  The context entering the
node decides whether this node is the outermost type expression of its
statement; sub-expressions are validated with `is_not_topmost_type` set, and
only the outermost value is finalized before being returned. -/
def validateType (s : St) (ctx : Ctx) (t : RTsType) : St × Ty :=
  let isTop := !ctx.is_not_topmost_type
  let ctx' := { ctx with is_not_topmost_type := true }
  let r := validateTypeCore s ctx' t
  (addTrace r.1 t, if isTop then cheap r.2 else r.2)
termination_by (sizeOf t, 1)

/-- The per-shape dispatch of the `RTsType` validator (the body of the
closure run under the nested context). -/
def validateTypeCore (s : St) (ctx : Ctx) (t : RTsType) : St × Ty :=
  match t with
  | .keyword sp k =>
      if k == .intrinsic && !s.is_builtin then
        (report s (.noSuchType sp "intrinsic"), tyAny sp)
      else
        (s, Ty.keyword sp k {})
  | .array sp e =>
      let r := validateType s ctx e
      (r.1, Ty.array sp r.2 {})
  | .tuple sp es =>
      let r := validateTupleElems s ctx es
      (r.1, Ty.tuple sp r.2 tupleMd)
  | .union sp ts =>
      let r := validateTypeList s ctx ts
      (r.1, fixTy (Ty.union sp (dedupType r.2) {}))
  | .conditional sp a b c d =>
      let ra := validateType s ctx a
      let rb := validateType ra.1 ctx b
      let rc := validateType rb.1 ctx c
      let rd := validateType rc.1 ctx d
      (rd.1, Ty.conditional sp ra.2 rb.2 rc.2 rd.2 {})
  | .paren _ inner => validateType s ctx inner
  | .typeRef sp n args => validateTypeRefBody s ctx sp n args
  | .infer sp p =>
      let r := validateTypeParam s ctx p
      (r.1, Ty.infer sp r.2 inferMd)
termination_by (sizeOf t, 0)

/-- Sequential validation of a list of types. -/
def validateTypeList (s : St) (ctx : Ctx) : List RTsType → St × List Ty
  | [] => (s, [])
  | t :: ts =>
      let r := validateType s ctx t
      let rs := validateTypeList r.1 ctx ts
      (rs.1, r.2 :: rs.2)
termination_by l => (sizeOf l, 0)

/-- Sequential validation of tuple members (`RTsTupleElement`). -/
def validateTupleElems (s : St) (ctx : Ctx) : List RTsTupleElement → St × List TupleElem
  | [] => (s, [])
  | .mk sp lab ty :: rest =>
      let r := validateType s ctx ty
      let rs := validateTupleElems r.1 ctx rest
      (rs.1, .mk sp lab r.2 :: rs.2)
termination_by l => (sizeOf l, 0)

/-- Validation of an optional type annotation. -/
def validateOptType (s : St) (ctx : Ctx) : Option RTsType → St × Option Ty
  | none => (s, none)
  | some t =>
      let r := validateType s ctx t
      (r.1, some r.2)
termination_by o => (sizeOf o, 0)

/-- The `RTsTypeParamInstantiation` validator: arguments are validated in
actual-type mode. -/
def validateInst (s : St) (ctx : Ctx) (i : RInst) : St × TyParamInst :=
  match i with
  | .mk sp ps =>
      let ctx2 := { ctx with in_actual_type := true }
      let r := validateTypeList s ctx2 ps
      (r.1, .mk sp r.2)
termination_by (sizeOf i, 0)

/-- The `RTsTypeParam` validator: constraint and default are validated in
actual-type mode and finalized, then the parameter is registered in scope. -/
def validateTypeParam (s : St) (ctx : Ctx) (p : RTsTypeParam) : St × TyParam :=
  match p with
  | .mk sp name cons dflt =>
      let ctx2 := { ctx with in_actual_type := true }
      let rc := validateOptType s ctx2 cons
      let c := rc.2.map cheap
      let rd := validateOptType rc.1 ctx2 dflt
      let d := rd.2.map cheap
      let param : TyParam := .mk sp name.sym c d {}
      (registerType rd.1 name.sym (Ty.param param), param)
termination_by (sizeOf p, 0)

/-- The `RTsTypeRef` validator.  Type arguments are validated and frozen
first; a reference named `Array` carrying exactly one argument becomes the
Array variant immediately; otherwise identifier references are resolved
through the scope chain with the unresolved-name diagnostics. -/
def validateTypeRefBody (s : St) (ctx : Ctx) (span : Span) (name : REntityName)
    (args : Option RInst) : St × Ty :=
  match args with
  | none => refDispatch s ctx span name none
  | some i =>
      let ri := validateInst s ctx i
      refDispatch ri.1 ctx span name (some (freezeInst ri.2))
termination_by (sizeOf args, 1)


end

/-- Name of a type-parameter syntax node. -/
def RTsTypeParam.name : RTsTypeParam → RIdent
  | .mk _ n _ _ => n

/-- Span of a type-parameter syntax node. -/
def RTsTypeParam.span : RTsTypeParam → Span
  | .mk sp _ _ _ => sp

/-- The duplicate-name loop of the `RTsTypeParamDecl` validator: walk the
declared names, report a `DuplicateName` diagnostic for every repeat
occurrence (by symbol), keep every occurrence. -/
def dupCheckGo (s : St) (found : List String) : List RIdent → St
  | [] => s
  | n :: ns =>
      if found.contains n.sym then
        dupCheckGo (report s (.duplicateName n.span n.sym)) found ns
      else
        dupCheckGo s (n.sym :: found) ns

/-- Placeholder registration: every parameter is registered under a frozen
constraint-free placeholder before any constraint is elaborated. -/
def registerPlaceholders (s : St) : List RTsTypeParam → St
  | [] => s
  | p :: ps =>
      registerPlaceholders
        (registerType s p.name.sym (cheap (Ty.param (.mk p.span p.name.sym none none {})))) ps

/-- Sequential validation of a type-parameter list. -/
def validateTypeParamList (s : St) (ctx : Ctx) : List RTsTypeParam → St × List TyParam
  | [] => (s, [])
  | p :: ps =>
      let r := validateTypeParam s ctx p
      let rs := validateTypeParamList r.1 ctx ps
      (rs.1, r.2 :: rs.2)

/-- The name-to-type mapping built by the declaration validator: for each
parameter, the first type found for its name (first occurrence of a name
wins, later occurrences are skipped by `or_insert_with`).  The source
unwraps the lookup; an entry is always present because every parameter was
just registered. -/
def buildMap (s : St) (ctx : Ctx) : List TyParam → List (String × Ty) → List (String × Ty)
  | [], m => m
  | p :: ps, m =>
      let m' :=
        if m.any (fun q => q.1 == p.name) then m
        else
          match findType s ctx.module_id p.name with
          | some (ty :: _) => m ++ [(p.name, ty)]
          | _ => m
      buildMap s ctx ps m'

/-- Modelled from the spec: `expand_type_params` — "re-expand every
parameter's constraint/default against that mapping so that forward
references are fully substituted", in one pass; the parameter list's
length, order and names are preserved. -/
def expandTypeParams (m : List (String × Ty)) (ps : List TyParam) : List TyParam :=
  ps.map (fun p => .mk p.span p.name (p.constraint.map (substTy m))
    (p.default.map (substTy m)) (TyParam.md p))

/-- Final re-registration of the fully resolved parameters. -/
def reRegisterParams (s : St) : List TyParam → St
  | [] => s
  | p :: ps => reRegisterParams (registerType s p.name (Ty.param p)) ps

/-- The `RTsTypeParamDecl` validator.  Builtin mode elaborates the list
verbatim; otherwise: duplicate check, placeholder registration, per-param
validation, constraint re-expansion against the name mapping, freeze, and
re-registration. -/
def validateTypeParamDecl (s : St) (ctx : Ctx) (d : RTsTypeParamDecl) : St × TyParamDecl :=
  if s.is_builtin then
    let r := validateTypeParamList s ctx d.params
    (r.1, .mk d.span r.2)
  else
    let s1 := dupCheckGo s [] (d.params.map RTsTypeParam.name)
    let s2 := registerPlaceholders s1 d.params
    let r := validateTypeParamList s2 ctx d.params
    let m := buildMap r.1 ctx r.2 []
    let params := (expandTypeParams m r.2).map freezeParam
    (reRegisterParams r.1 params, .mk d.span params)

/-- A type-alias declaration (`RTsTypeAliasDecl`). -/
structure RTsTypeAliasDecl where
  span : Span
  id : RIdent
  typeParams : Option RTsTypeParamDecl
  typeAnn : RTsType

/-- Update the metadata record at the top of a value. -/
def setTopMeta (f : Meta → Meta) : Ty → Ty
  | .arc t => .arc (setTopMeta f t)
  | .keyword sp k md => .keyword sp k (f md)
  | .array sp e md => .array sp e (f md)
  | .tuple sp es md => .tuple sp es (f md)
  | .union sp ts md => .union sp ts (f md)
  | .conditional sp c e t fl md => .conditional sp c e t fl (f md)
  | .infer sp p md => .infer sp p (f md)
  | .param (.mk sp n c d md) => .param (.mk sp n c d (f md))
  | .ref sp c n a md => .ref sp c n a (f md)
  | .alias sp t d md => .alias sp t d (f md)
  | .intrinsicKw sp k a md => .intrinsicKw sp k a (f md)

/-- Modelled from the spec: `mark_type_as_infer_type_container` (source not
among the provided files) — records on the value that it contains an
infer-capture, so that it "should be expanded to remove infer type". -/
def markInferContainer : Ty → Ty :=
  setTopMeta (fun m => { m with contains_infer_type := true })

/-- Modelled from the spec: `prevent_expansion` (source not among the
provided files) — marks the value against automatic expansion. -/
def preventExpansion : Ty → Ty :=
  setTopMeta (fun m => { m with no_expand := true })

/-- The `RTsTypeAliasDecl` validator, run in a child flow scope.  A direct
`intrinsic` body is intercepted before ordinary type validation: outside
builtin mode it reports `IntrinsicIsBuiltinOnly` and falls back to "any";
in builtin mode it produces the intrinsic variant (the source unwraps the
type-parameter list there, hence the `Option` result).  The body is then
marked, frozen, wrapped in a frozen alias, and registered in the parent
scope. -/
def validateTypeAliasDecl (s : St) (ctx : Ctx) (d : RTsTypeAliasDecl) : Option (St × Ty) :=
  let s0 := pushScope s .flow
  let rtp : St × Option TyParamDecl :=
    match d.typeParams with
    | none => (s0, none)
    | some tp =>
        let r := validateTypeParamDecl s0 ctx tp
        (r.1, some r.2)
  let body : Option (St × Ty) :=
    match d.typeAnn with
    | .keyword ksp .intrinsic =>
        if !rtp.1.is_builtin then
          some (report rtp.1 (.intrinsicIsBuiltinOnly ksp), tyAny ksp)
        else
          match rtp.2 with
          | none => none
          | some tps =>
              some (rtp.1, Ty.intrinsicKw d.span d.id.sym
                (.mk d.span (tps.params.map (fun v => Ty.param (.mk 0 (TyParam.name v) none none {})))) {})
    | other => some (validateType rtp.1 ctx other)
  match body with
  | none => none
  | some r =>
      let ci := containsInferType r.2
      let ty1 := if ci then markInferContainer r.2 else preventExpansion r.2
      let aliasTy := cheap (Ty.alias d.span (cheap ty1) rtp.2 { contains_infer_type := ci })
      let s2 := registerType (popScope r.1) d.id.sym aliasTy
      some ({ s2 with unmergeable := s2.unmergeable ++ [(d.id.sym, d.id.span)] }, aliasTy)

mutual

/-- Binding patterns (`RPat`), restricted to the fragment the implicit-any
defaulter claims exercise: identifier leaves and array patterns.  `hasAnn`
models the presence of an explicit type annotation. -/
inductive RPat where
  | ident (nodeId : Nat) (span : Span) (sym : String) (hasAnn : Bool)
  | array (a : RArrayPat)

/-- An array binding pattern (`RArrayPat`); elements may be holes. -/
inductive RArrayPat where
  | mk (nodeId : Nat) (span : Span) (elems : List (Option RPat)) (hasAnn : Bool)

end

/-- Node identity of an array pattern. -/
def RArrayPat.nodeId : RArrayPat → Nat
  | .mk n _ _ _ => n

/-- Span of an array pattern. -/
def RArrayPat.span : RArrayPat → Span
  | .mk _ sp _ _ => sp

/-- Span of a pattern. -/
def RPat.span : RPat → Span
  | .ident _ sp _ _ => sp
  | .array a => a.span

/-- Span of an optional pattern element (dummy span for holes). -/
def elemSpan : Option RPat → Span
  | none => 0
  | some p => p.span

/-- The mutation table (`mutations.for_pats`), keyed by pattern-node
identity; a missing entry and an entry whose recorded type was taken behave
identically (`entry().or_default()`), so both are `none`. -/
abbrev MutTable := Nat → Option Ty

/-- Record a type for a node unless one is already recorded
(`entry().or_default().ty.get_or_insert_with`). -/
def insertIfNone (m : MutTable) (k : Nat) (ty : Ty) : MutTable :=
  fun n => if n = k then some ((m k).getD ty) else m n

/-- Overwrite a table entry (the write half of `Option::take`). -/
def tableSet (m : MutTable) (k : Nat) (v : Option Ty) : MutTable :=
  fun n => if n = k then v else m n

mutual

/-- The implicit-any defaulter for array patterns (`default_any_array_pat`):
annotated patterns are left alone; otherwise each element is defaulted
(array elements recurse and their just-recorded entry is taken back out of
the table; all other elements become "any"), the per-element results are
composed into a tuple, and the tuple is recorded for the pattern unless a
type is already recorded.  `none` models the panic of the source's
`take().unwrap()` on an element whose recursion recorded nothing. -/
def defaultAnyArrayPat (m : MutTable) (a : RArrayPat) : Option MutTable :=
  match a with
  | .mk nid _ elems ann =>
      if ann then some m
      else
        match defaultElems m elems with
        | none => none
        | some r => some (insertIfNone r.1 nid (Ty.tuple 0 r.2 {}))
termination_by (sizeOf a, 0)

/-- Element-wise defaulting inside an array pattern. -/
def defaultElems (m : MutTable) : List (Option RPat) → Option (MutTable × List TupleElem)
  | [] => some (m, [])
  | e :: rest =>
      let step : Option (MutTable × Ty) :=
        match e with
        | some (.array a) =>
            match defaultAnyArrayPat m a with
            | none => none
            | some m1 =>
                match m1 a.nodeId with
                | none => none
                | some ty => some (tableSet m1 a.nodeId none, ty)
        | _ => some (m, tyAny 0)
      match step with
      | none => none
      | some st =>
          match defaultElems st.1 rest with
          | none => none
          | some r => some (r.1, .mk (elemSpan e) none st.2 :: r.2)
termination_by l => (sizeOf l, 1)

end

mutual

/-- The elaboration trace of a type node: the nodes recorded while
elaborating it, in completion order (each node is recorded when its own
elaboration finishes, after all of its sub-elaborations). -/
def visited : RTsType → List RTsType
  | .keyword sp k => [.keyword sp k]
  | .array sp e => visited e ++ [.array sp e]
  | .tuple sp es => visitedElems es ++ [.tuple sp es]
  | .union sp ts => visitedList ts ++ [.union sp ts]
  | .conditional sp a b c d =>
      visited a ++ visited b ++ visited c ++ visited d ++ [.conditional sp a b c d]
  | .paren sp i => visited i ++ [.paren sp i]
  | .typeRef sp n args => visitedArgs args ++ [.typeRef sp n args]
  | .infer sp p => visitedParam p ++ [.infer sp p]

/-- Trace of a list of types. -/
def visitedList : List RTsType → List RTsType
  | [] => []
  | t :: ts => visited t ++ visitedList ts

/-- Trace of tuple members. -/
def visitedElems : List RTsTupleElement → List RTsType
  | [] => []
  | .mk _ _ t :: es => visited t ++ visitedElems es

/-- Trace of an optional type. -/
def visitedOpt : Option RTsType → List RTsType
  | none => []
  | some t => visited t

/-- Trace of a type-parameter node (constraint, then default). -/
def visitedParam : RTsTypeParam → List RTsType
  | .mk _ _ c d => visitedOpt c ++ visitedOpt d

/-- Trace of optional instantiation arguments. -/
def visitedArgs : Option RInst → List RTsType
  | none => []
  | some (.mk _ ps) => visitedList ps

end

/-- The finalization step the dispatcher applies to the produced value:
the outermost type expression of a statement is made cheap, nested values
are returned untouched. -/
def finalizeTop (ctx : Ctx) (t : Ty) : Ty :=
  if ctx.is_not_topmost_type then t else cheap t

/-- The metadata record at the top of a value (looking through the
finalization wrapper). -/
def tyTopMeta : Ty → Meta
  | .arc t => tyTopMeta t
  | .keyword _ _ m => m
  | .array _ _ m => m
  | .tuple _ _ m => m
  | .union _ _ m => m
  | .conditional _ _ _ _ _ m => m
  | .infer _ _ m => m
  | .param p => TyParam.md p
  | .ref _ _ _ _ m => m
  | .alias _ _ _ m => m
  | .intrinsicKw _ _ _ m => m

/-- Whether a diagnostic list contains an `IntrinsicIsBuiltinOnly` entry. -/
def hasIntrinsicOnlyDiag (l : List Diag) : Bool :=
  l.any fun d =>
    match d with
    | .intrinsicIsBuiltinOnly _ => true
    | _ => false

mutual

/-- Syntax containing no type-reference node (type references may resolve
to already-frozen stored placeholders, every other shape produces a fresh
value). -/
def refFree : RTsType → Bool
  | .keyword _ _ => true
  | .array _ e => refFree e
  | .tuple _ es => elemsRefFree es
  | .union _ ts => listRefFree ts
  | .conditional _ a b c d => refFree a && refFree b && refFree c && refFree d
  | .paren _ i => refFree i
  | .typeRef _ _ _ => false
  | .infer _ p => paramRefFree p

/-- Reference-freedom of a list of types. -/
def listRefFree : List RTsType → Bool
  | [] => true
  | t :: ts => refFree t && listRefFree ts

/-- Reference-freedom of tuple members. -/
def elemsRefFree : List RTsTupleElement → Bool
  | [] => true
  | .mk _ _ t :: es => refFree t && elemsRefFree es

/-- Reference-freedom of an optional type. -/
def optRefFree : Option RTsType → Bool
  | none => true
  | some t => refFree t

/-- Reference-freedom of a type-parameter node. -/
def paramRefFree : RTsTypeParam → Bool
  | .mk _ _ c d => optRefFree c && optRefFree d

end

theorem validateType_unfold (s : St) (ctx : Ctx) (t : RTsType) :
    validateType s ctx t =
      (addTrace (validateTypeCore s { ctx with is_not_topmost_type := true } t).1 t,
       finalizeTop ctx (validateTypeCore s { ctx with is_not_topmost_type := true } t).2) := by
  rw [validateType, finalizeTop]
  cases h : ctx.is_not_topmost_type <;> simp [h]

theorem report_scope (s : St) (d : Diag) : (report s d).scope = s.scope := rfl

theorem report_trace (s : St) (d : Diag) : (report s d).trace = s.trace := rfl

theorem addTrace_diags (s : St) (t : RTsType) : (addTrace s t).diags = s.diags := rfl

theorem registerType_trace (s : St) (n : String) (ty : Ty) :
    (registerType s n ty).trace = s.trace := by
  unfold registerType; split <;> rfl

theorem registerType_diags (s : St) (n : String) (ty : Ty) :
    (registerType s n ty).diags = s.diags := by
  unfold registerType; split <;> rfl

theorem staticCheck_trace (s : St) (i : RIdent) : (staticCheck s i).trace = s.trace := by
  unfold staticCheck; split <;> rfl

theorem reportUnresolve_trace (s : St) (ctx : Ctx) (sp : Span) (n : REntityName) :
    (reportUnresolve s ctx sp n).trace = s.trace := by
  unfold reportUnresolve
  cases n <;> simp only [] <;> split <;> rfl

theorem refFallback_trace (s : St) (ctx : Ctx) (sp : Span) (n : REntityName)
    (ta : Option TyParamInst) (ci rep : Bool) :
    (refFallback s ctx sp n ta ci rep).1.trace = s.trace := by
  unfold refFallback
  split
  · exact reportUnresolve_trace ..
  · rfl

theorem identRefBranch_trace (s : St) (ctx : Ctx) (sp : Span) (i : RIdent)
    (ta : Option TyParamInst) :
    (identRefBranch s ctx sp i ta).1.trace = s.trace := by
  unfold identRefBranch
  dsimp only
  split
  · split
    · exact staticCheck_trace ..
    · split
      · rw [refFallback_trace, report_trace, staticCheck_trace]
      · rw [refFallback_trace, staticCheck_trace]
  · split
    · rw [refFallback_trace, report_trace, staticCheck_trace]
    · rw [refFallback_trace, staticCheck_trace]

theorem refDispatch_trace (s : St) (ctx : Ctx) (sp : Span) (n : REntityName)
    (ta : Option TyParamInst) :
    (refDispatch s ctx sp n ta).1.trace = s.trace := by
  unfold refDispatch
  split
  · split
    · split
      · rfl
      · rw [refFallback_trace]
    · rw [identRefBranch_trace]
  · rw [identRefBranch_trace]
  · rw [refFallback_trace]

theorem addTrace_trace (s : St) (t : RTsType) :
    (addTrace s t).trace = s.trace ++ [t] := rfl

mutual

/-- The elaboration of a node appends exactly its `visited` trace. -/
theorem trace_validateType (s : St) (ctx : Ctx) (t : RTsType) :
    (validateType s ctx t).1.trace = s.trace ++ visited t := by
  rw [validateType_unfold]
  show (addTrace _ t).trace = _
  rw [addTrace_trace, trace_validateCore]
termination_by (sizeOf t, 1)

theorem trace_validateCore (s : St) (ctx : Ctx) (t : RTsType) :
    (validateTypeCore s ctx t).1.trace ++ [t] = s.trace ++ visited t := by
  cases t with
  | keyword sp k =>
      rw [validateTypeCore, visited]
      split <;> simp [report_trace]
  | array sp e =>
      rw [validateTypeCore, visited]
      show (validateType s ctx e).1.trace ++ _ = _
      rw [trace_validateType s ctx e, List.append_assoc]
  | tuple sp es =>
      rw [validateTypeCore, visited]
      show (validateTupleElems s ctx es).1.trace ++ _ = _
      rw [trace_validateElems s ctx es, List.append_assoc]
  | union sp ts =>
      rw [validateTypeCore, visited]
      show (validateTypeList s ctx ts).1.trace ++ _ = _
      rw [trace_validateList s ctx ts, List.append_assoc]
  | conditional sp a b c d =>
      rw [validateTypeCore, visited]
      show (validateType (validateType (validateType (validateType s ctx a).1 ctx b).1 ctx c).1
        ctx d).1.trace ++ _ = _
      rw [trace_validateType _ ctx d, trace_validateType _ ctx c, trace_validateType _ ctx b,
        trace_validateType s ctx a]
      simp [List.append_assoc]
  | paren sp inner =>
      rw [validateTypeCore, visited]
      rw [trace_validateType s ctx inner, List.append_assoc]
  | typeRef sp n args =>
      rw [validateTypeCore, visited]
      rw [trace_validateRefBody s ctx sp n args, List.append_assoc]
  | infer sp p =>
      rw [validateTypeCore, visited]
      show (validateTypeParam s ctx p).1.trace ++ _ = _
      rw [trace_validateParam s ctx p, List.append_assoc]
termination_by (sizeOf t, 0)

theorem trace_validateList (s : St) (ctx : Ctx) (l : List RTsType) :
    (validateTypeList s ctx l).1.trace = s.trace ++ visitedList l := by
  match l with
  | [] => rw [validateTypeList, visitedList]; simp
  | t :: ts =>
      rw [validateTypeList, visitedList]
      show (validateTypeList (validateType s ctx t).1 ctx ts).1.trace = _
      rw [trace_validateList _ ctx ts, trace_validateType s ctx t, List.append_assoc]
termination_by (sizeOf l, 0)

theorem trace_validateElems (s : St) (ctx : Ctx) (l : List RTsTupleElement) :
    (validateTupleElems s ctx l).1.trace = s.trace ++ visitedElems l := by
  match l with
  | [] => rw [validateTupleElems, visitedElems]; simp
  | .mk sp lab ty :: rest =>
      rw [validateTupleElems, visitedElems]
      show (validateTupleElems (validateType s ctx ty).1 ctx rest).1.trace = _
      rw [trace_validateElems _ ctx rest, trace_validateType s ctx ty, List.append_assoc]
termination_by (sizeOf l, 0)

theorem trace_validateOpt (s : St) (ctx : Ctx) (o : Option RTsType) :
    (validateOptType s ctx o).1.trace = s.trace ++ visitedOpt o := by
  match o with
  | none => rw [validateOptType, visitedOpt]; simp
  | some t =>
      rw [validateOptType, visitedOpt]
      show (validateType s ctx t).1.trace = _
      rw [trace_validateType s ctx t]
termination_by (sizeOf o, 1)

theorem trace_validateParam (s : St) (ctx : Ctx) (p : RTsTypeParam) :
    (validateTypeParam s ctx p).1.trace = s.trace ++ visitedParam p := by
  match p with
  | .mk sp name cons dflt =>
      rw [validateTypeParam, visitedParam]
      show (registerType (validateOptType (validateOptType s _ cons).1 _ dflt).1 _ _).trace = _
      rw [registerType_trace, trace_validateOpt _ _ dflt, trace_validateOpt s _ cons,
        List.append_assoc]
termination_by (sizeOf p, 2)

theorem trace_validateInst (s : St) (ctx : Ctx) (i : RInst) :
    (validateInst s ctx i).1.trace = s.trace ++ visitedArgs (some i) := by
  match i with
  | .mk sp ps =>
      rw [validateInst, visitedArgs]
      show (validateTypeList s _ ps).1.trace = _
      rw [trace_validateList s _ ps]
termination_by (sizeOf i, 1)

theorem trace_validateRefBody (s : St) (ctx : Ctx) (sp : Span) (n : REntityName)
    (args : Option RInst) :
    (validateTypeRefBody s ctx sp n args).1.trace = s.trace ++ visitedArgs args := by
  match args with
  | none =>
      rw [validateTypeRefBody, refDispatch_trace, visitedArgs]
      simp
  | some i =>
      rw [validateTypeRefBody]
      show (refDispatch (validateInst s ctx i).1 ctx sp n _).1.trace = _
      rw [refDispatch_trace]
      exact trace_validateInst s ctx i
termination_by (sizeOf args, 2)

end

theorem nameEq_refl (n : REntityName) : nameEq n n = true := by
  induction n with
  | ident i => simp [nameEq]
  | qualified l r ih => simp [nameEq, ih]

theorem typeEq_arc_left (a b : Ty) : typeEq (Ty.arc a) b = typeEq a b := by
  simp [typeEq]

theorem typeEq_arc_right : (a b : Ty) → typeEq a (Ty.arc b) = typeEq a b
  | .arc t, b => by rw [typeEq_arc_left, typeEq_arc_left]; exact typeEq_arc_right t b
  | .keyword _ _ _, _ => by simp [typeEq]
  | .array _ _ _, _ => by simp [typeEq]
  | .tuple _ _ _, _ => by simp [typeEq]
  | .union _ _ _, _ => by simp [typeEq]
  | .conditional _ _ _ _ _ _, _ => by simp [typeEq]
  | .infer _ _ _, _ => by simp [typeEq]
  | .param _, _ => by simp [typeEq]
  | .ref _ _ _ _ _, _ => by simp [typeEq]
  | .alias _ _ _ _, _ => by simp [typeEq]
  | .intrinsicKw _ _ _ _, _ => by simp [typeEq]

theorem cheap_arc (t : Ty) : cheap (Ty.arc t) = Ty.arc t := by simp [cheap]

theorem typeEq_cheap_left (a b : Ty) : typeEq (cheap a) b = typeEq a b := by
  cases a
  case arc t => rw [cheap_arc]
  all_goals simp only [cheap, typeEq_arc_left]

theorem typeEq_cheap_right (a b : Ty) : typeEq a (cheap b) = typeEq a b := by
  cases b
  case arc t => rw [cheap_arc]
  all_goals simp only [cheap, typeEq_arc_right]

mutual

/-- Structural equality is reflexive. -/
theorem typeEq_refl : (t : Ty) → typeEq t t = true
  | .arc t => by rw [typeEq_arc_left, typeEq_arc_right]; exact typeEq_refl t
  | .keyword sp k md => by simp [typeEq]
  | .array sp e md => by simp [typeEq, typeEq_refl e]
  | .tuple sp es md => by simp [typeEq, elemsEq_refl es]
  | .union sp ts md => by simp [typeEq, listEq_refl ts]
  | .conditional sp c e t f md => by
      simp [typeEq, typeEq_refl c, typeEq_refl e, typeEq_refl t, typeEq_refl f]
  | .infer sp p md => by simp [typeEq, paramEq_refl p]
  | .param p => by simp [typeEq, paramEq_refl p]
  | .ref sp c n a md => by simp [typeEq, nameEq_refl n, optInstEq_refl a]
  | .alias sp t d md => by simp [typeEq, typeEq_refl t, optDeclEq_refl d]
  | .intrinsicKw sp k a md => by simp [typeEq, instEq_refl a]

/-- Reflexivity for type lists. -/
theorem listEq_refl : (l : List Ty) → listEq l l = true
  | [] => by simp [listEq]
  | t :: ts => by
      simp only [listEq, Bool.and_eq_true]
      exact ⟨typeEq_refl t, listEq_refl ts⟩

/-- Reflexivity for tuple members. -/
theorem elemsEq_refl : (l : List TupleElem) → elemsEq l l = true
  | [] => by simp [elemsEq]
  | .mk sp lab t :: es => by
      simp only [elemsEq, Bool.and_eq_true, beq_self_eq_true]
      exact ⟨⟨trivial, typeEq_refl t⟩, elemsEq_refl es⟩

/-- Reflexivity for type parameters. -/
theorem paramEq_refl : (p : TyParam) → paramEq p p = true
  | .mk sp n c d md => by
      simp only [paramEq, Bool.and_eq_true, beq_self_eq_true]
      exact ⟨⟨trivial, optTyEq_refl c⟩, optTyEq_refl d⟩

/-- Reflexivity for optional types. -/
theorem optTyEq_refl : (o : Option Ty) → optTyEq o o = true
  | none => by simp [optTyEq]
  | some t => by rw [optTyEq]; exact typeEq_refl t

/-- Reflexivity for instantiations. -/
theorem instEq_refl : (a : TyParamInst) → instEq a a = true
  | .mk sp ps => by rw [instEq]; exact listEq_refl ps

/-- Reflexivity for optional instantiations. -/
theorem optInstEq_refl : (o : Option TyParamInst) → optInstEq o o = true
  | none => by simp [optInstEq]
  | some a => by rw [optInstEq]; exact instEq_refl a

/-- Reflexivity for optional declarations. -/
theorem optDeclEq_refl : (o : Option TyParamDecl) → optDeclEq o o = true
  | none => by simp [optDeclEq]
  | some (.mk sp ps) => by rw [optDeclEq]; exact paramsEq_refl ps

/-- Reflexivity for parameter lists. -/
theorem paramsEq_refl : (l : List TyParam) → paramsEq l l = true
  | [] => by simp [paramsEq]
  | p :: ps => by
      simp only [paramsEq, Bool.and_eq_true]
      exact ⟨paramEq_refl p, paramsEq_refl ps⟩

end

theorem normalize_arc (t : Ty) : normalize (Ty.arc t) = normalize t := by
  simp [normalize]

theorem normalize_cheap (t : Ty) : normalize (cheap t) = normalize t := by
  cases t
  case arc t => rw [cheap_arc]
  all_goals simp only [cheap, normalize_arc]

theorem normalize_finalizeTop (ctx : Ctx) (t : Ty) :
    normalize (finalizeTop ctx t) = normalize t := by
  unfold finalizeTop
  split
  · rfl
  · exact normalize_cheap t

theorem dedupType_sublist : (l : List Ty) → (dedupType l).Sublist l
  | [] => by rw [dedupType]
  | t :: ts => by
      rw [dedupType]
      exact List.Sublist.cons₂ t ((dedupType_sublist _).trans (List.filter_sublist _))
termination_by l => l.length
decreasing_by
  simp only [List.length_cons]
  exact Nat.lt_succ_of_le (List.length_filter_le _ _)

theorem dedupType_complete : (l : List Ty) → ∀ x ∈ l, ∃ u ∈ dedupType l, typeEq u x = true
  | [] => by intro x hx; simp at hx
  | t :: ts => by
      intro x hx
      rw [dedupType]
      rcases List.mem_cons.mp hx with h | h
      · exact ⟨t, List.mem_cons_self t _, by rw [h]; exact typeEq_refl t⟩
      · by_cases ht : typeEq t x = true
        · exact ⟨t, List.mem_cons_self t _, ht⟩
        · have htf : typeEq t x = false := by
            revert ht; cases typeEq t x <;> simp
          have hx' : x ∈ ts.filter (fun u => !typeEq t u) :=
            List.mem_filter.mpr ⟨h, by rw [htf]; rfl⟩
          obtain ⟨u, hu, he⟩ := dedupType_complete _ x hx'
          exact ⟨u, List.mem_cons_of_mem t hu, he⟩
termination_by l => l.length
decreasing_by
  simp only [List.length_cons]
  exact Nat.lt_succ_of_le (List.length_filter_le _ _)

theorem dedupType_pairwise : (l : List Ty) → (dedupType l).Pairwise (fun a b => typeEq a b = false)
  | [] => by rw [dedupType]; exact List.Pairwise.nil
  | t :: ts => by
      rw [dedupType]
      refine List.Pairwise.cons ?_ (dedupType_pairwise _)
      intro u hu
      have hsub : u ∈ ts.filter (fun v => !typeEq t v) :=
        (dedupType_sublist _).subset hu
      have h2 := (List.mem_filter.mp hsub).2
      revert h2; cases typeEq t u <;> simp
termination_by l => l.length
decreasing_by
  simp only [List.length_cons]
  exact Nat.lt_succ_of_le (List.length_filter_le _ _)

theorem visited_getLast (t : RTsType) : (visited t).getLast? = some t := by
  cases t <;> rw [visited] <;> first | rfl | exact List.getLast?_concat _

/-- C4: for every conditional type `A extends B ? C : D`, the dispatcher
elaborates the check, extends, true and false sub-types in exactly that
order and each exactly once: the elaboration trace of the conditional node
is precisely the trace of A, then of B, then of C, then of D (one contiguous
segment each, so each sub-type is elaborated exactly once), followed by the
completion of the conditional itself; each segment ends with the completion
of its own root node. -/
theorem c4_conditional_order (s : St) (ctx : Ctx) (sp : Span) (a b c d : RTsType) :
    (validateType s ctx (.conditional sp a b c d)).1.trace
      = s.trace ++ (visited a ++ (visited b ++ (visited c ++ (visited d
          ++ [RTsType.conditional sp a b c d]))))
    ∧ (visited a).getLast? = some a ∧ (visited b).getLast? = some b
    ∧ (visited c).getLast? = some c ∧ (visited d).getLast? = some d := by
  refine ⟨?_, visited_getLast a, visited_getLast b, visited_getLast c, visited_getLast d⟩
  rw [trace_validateType, visited]
  simp [List.append_assoc]

theorem isCheap_cheap (t : Ty) : isCheap (cheap t) = true := by
  cases t <;> simp [cheap, isCheap]

theorem refFree_nested_not_cheap :
    (t : RTsType) → ∀ (s : St) (ctx : Ctx), ctx.is_not_topmost_type = true →
      refFree t = true → isCheap (validateType s ctx t).2 = false
  | t, s, ctx, hctx, hrf => by
      rw [validateType_unfold]
      show isCheap (finalizeTop ctx _) = false
      rw [finalizeTop, if_pos hctx]
      cases t with
      | keyword sp k =>
          rw [validateTypeCore]
          split <;> simp [isCheap, tyAny]
      | array sp e => rw [validateTypeCore]; simp [isCheap]
      | tuple sp es => rw [validateTypeCore]; simp [isCheap]
      | union sp ts => rw [validateTypeCore]; simp [isCheap, fixTy]
      | conditional sp a b c d => rw [validateTypeCore]; simp [isCheap]
      | paren sp inner =>
          rw [validateTypeCore]
          exact refFree_nested_not_cheap inner s _ rfl (by rw [refFree] at hrf; exact hrf)
      | typeRef sp n args => exact absurd hrf (by rw [refFree]; simp)
      | infer sp p => rw [validateTypeCore]; simp [isCheap]
termination_by t => sizeOf t

/-- C9: the value returned for the outermost type expression of a statement
is finalized ("cheap") before being returned; a nested sub-expression is
returned exactly as the per-shape dispatch produced it, with no finalization
applied by this rule — in particular, for reference-free syntax the nested
value is not finalized at all (a type reference may return an already-frozen
stored placeholder, which this rule neither creates nor removes). -/
theorem c9_topmost_finalized (s : St) (ctx : Ctx) (t : RTsType) :
    (ctx.is_not_topmost_type = false → isCheap (validateType s ctx t).2 = true)
    ∧ (ctx.is_not_topmost_type = true →
        validateType s ctx t
          = (addTrace (validateTypeCore s ctx t).1 t, (validateTypeCore s ctx t).2))
    ∧ (ctx.is_not_topmost_type = true → refFree t = true →
        isCheap (validateType s ctx t).2 = false) := by
  refine ⟨?_, ?_, fun h hrf => refFree_nested_not_cheap t s ctx h hrf⟩
  · intro h
    rw [validateType_unfold]
    show isCheap (finalizeTop ctx _) = true
    rw [finalizeTop, if_neg (by rw [h]; exact Bool.false_ne_true)]
    exact isCheap_cheap _
  · intro h
    have hc : ({ ctx with is_not_topmost_type := true } : Ctx) = ctx := by
      cases ctx; simp_all
    rw [validateType_unfold, hc, finalizeTop, if_pos h]

/-- Witness for C9 at a concrete input: the keyword type `string` validated
as the outermost expression is finalized, and validated as a nested
sub-expression is not. -/
theorem c9_topmost_finalized_witness :
    isCheap (validateType { scope := [] } {} (.keyword 0 .string)).2 = true
    ∧ isCheap (validateType { scope := [] } { is_not_topmost_type := true }
        (.keyword 0 .string)).2 = false :=
  ⟨(c9_topmost_finalized { scope := [] } {} (.keyword 0 .string)).1 rfl,
   (c9_topmost_finalized { scope := [] } { is_not_topmost_type := true }
      (.keyword 0 .string)).2.2 rfl (by simp [refFree])⟩

/-- C3: union elaboration structurally deduplicates its members (set
semantics over structural equality) while preserving first-occurrence
order: in general the produced union's member list is the first-occurrence
deduplication of the elaborated members (a sublist of the members, covering
every member up to structural equality, with no two structurally equal
entries left); in particular `string | string | number` elaborates to a
union with exactly two members, `string` followed by `number`. -/
theorem c3_union_dedup (s : St) (ctx : Ctx) (sp s1 s2 s3 : Span) (ts : List RTsType) :
    normalize (validateType s ctx
        (.union sp [.keyword s1 .string, .keyword s2 .string, .keyword s3 .number])).2
      = Ty.union sp [Ty.keyword s1 .string {}, Ty.keyword s3 .number {}] {}
    ∧ (normalize (validateType s ctx (.union sp ts)).2
        = Ty.union sp
            (dedupType (validateTypeList s { ctx with is_not_topmost_type := true } ts).2) {}
       ∧ (dedupType (validateTypeList s { ctx with is_not_topmost_type := true } ts).2).Sublist
           (validateTypeList s { ctx with is_not_topmost_type := true } ts).2
       ∧ (∀ x ∈ (validateTypeList s { ctx with is_not_topmost_type := true } ts).2,
            ∃ u ∈ dedupType (validateTypeList s { ctx with is_not_topmost_type := true } ts).2,
              typeEq u x = true)
       ∧ (dedupType (validateTypeList s { ctx with is_not_topmost_type := true } ts).2).Pairwise
           (fun a b => typeEq a b = false)) := by
  refine ⟨?_, ?_, dedupType_sublist _, dedupType_complete _, dedupType_pairwise _⟩
  · rw [validateType_unfold, normalize_finalizeTop]
    simp [validateTypeCore, validateType_unfold, validateTypeList, fixTy, finalizeTop,
      dedupType, typeEq, normalize]
  · rw [validateType_unfold, normalize_finalizeTop, validateTypeCore, fixTy]
    simp [normalize]

theorem array_ref_reduce (s : St) (ctx : Ctx) (sp si isp : Span) (e : RTsType) :
    validateTypeRefBody s ctx sp (.ident ⟨si, "Array"⟩) (some (.mk isp [e])) =
      ((validateType s { ctx with in_actual_type := true } e).1,
       Ty.array sp (cheap (validateType s { ctx with in_actual_type := true } e).2) {}) := by
  rw [validateTypeRefBody]
  simp [validateInst, validateTypeList, freezeInst, refDispatch, TyParamInst.params]

theorem typeEq_finalize_left (ctx : Ctx) (a b : Ty) :
    typeEq (finalizeTop ctx a) b = typeEq a b := by
  rw [finalizeTop]; split
  · rfl
  · exact typeEq_cheap_left a b

theorem typeEq_finalize_right (ctx : Ctx) (a b : Ty) :
    typeEq a (finalizeTop ctx b) = typeEq a b := by
  rw [finalizeTop]; split
  · rfl
  · exact typeEq_cheap_right a b

/-- C10: the canonicalization of a reference named `Array` with exactly one
type argument happens before any scope interaction: for every state — in
particular every scope, including one in which a user-declared type or
variable named `Array` exists — the validator returns the Array variant and
the final state is exactly the state produced by validating the type
argument (plus the trace entry for the reference itself), so neither the
static-member type-parameter check nor any unresolved-reference diagnostic
runs for the reference. -/
theorem c10_array_before_lookup (s : St) (ctx : Ctx) (sp si isp : Span) (e : RTsType) :
    validateType s ctx (.typeRef sp (.ident ⟨si, "Array"⟩) (some (.mk isp [e])))
      = (addTrace
           (validateType s { ctx with in_actual_type := true, is_not_topmost_type := true } e).1
           (.typeRef sp (.ident ⟨si, "Array"⟩) (some (.mk isp [e]))),
         finalizeTop ctx (Ty.array sp
           (cheap (validateType s
             { ctx with in_actual_type := true, is_not_topmost_type := true } e).2) {})) := by
  rw [validateType_unfold, validateTypeCore, array_ref_reduce]

/-- C2: a reference to `Array` with exactly one type argument elaborates to
the Array variant carrying the elaborated argument as element type (not a
reference-wrapper), and in an actual-type position this value is
structurally equal to the elaboration of the array-syntax spelling with the
same element type. -/
theorem c2_array_ref_eq_array_syntax (s : St) (ctx : Ctx) (sp si isp spa : Span)
    (e : RTsType) (h : ctx.in_actual_type = true) :
    typeEq (validateType s ctx (.typeRef sp (.ident ⟨si, "Array"⟩) (some (.mk isp [e])))).2
           (validateType s ctx (.array spa e)).2 = true
    ∧ normalize (validateType s ctx
          (.typeRef sp (.ident ⟨si, "Array"⟩) (some (.mk isp [e])))).2
        = Ty.array sp (cheap (validateType s { ctx with is_not_topmost_type := true } e).2) {} := by
  have hc : ({ ctx with in_actual_type := true, is_not_topmost_type := true } : Ctx)
      = { ctx with is_not_topmost_type := true } := by
    cases ctx; simp_all
  constructor
  · rw [validateType_unfold, validateTypeCore, array_ref_reduce, hc]
    rw [show (validateType s ctx (.array spa e)).2
        = finalizeTop ctx (Ty.array spa (validateType s
            { ctx with is_not_topmost_type := true } e).2 {}) from by
      rw [validateType_unfold, validateTypeCore]]
    rw [typeEq_finalize_left, typeEq_finalize_right]
    simp only [typeEq, typeEq_cheap_left]
    exact typeEq_refl _
  · rw [validateType_unfold, validateTypeCore, array_ref_reduce, hc, normalize_finalizeTop]
    simp [normalize]

/-- Witness for C2 at a concrete input: `Array<string>` and `string[]`
elaborated in an actual-type position from an empty scope compare
structurally equal, and the reference form yields the Array variant. -/
theorem c2_array_ref_eq_array_syntax_witness :
    ({ in_actual_type := true } : Ctx).in_actual_type = true
    ∧ (typeEq (validateType { scope := [] } { in_actual_type := true }
          (.typeRef 1 (.ident ⟨2, "Array"⟩) (some (.mk 3 [.keyword 4 .string])))).2
        (validateType { scope := [] } { in_actual_type := true }
          (.array 5 (.keyword 4 .string))).2 = true
       ∧ normalize (validateType { scope := [] } { in_actual_type := true }
            (.typeRef 1 (.ident ⟨2, "Array"⟩) (some (.mk 3 [.keyword 4 .string])))).2
          = Ty.array 1 (cheap (validateType { scope := [] }
              { in_actual_type := true, is_not_topmost_type := true }
              (.keyword 4 .string)).2) {}) :=
  ⟨rfl, c2_array_ref_eq_array_syntax { scope := [] } { in_actual_type := true }
      1 2 3 5 (.keyword 4 .string) rfl⟩

/-- C6: an identifier type reference that resolves to no type, while a
variable of the same name exists in scope (non-builtin mode, actual-type
position, static-member check not applicable), reports exactly the
`NoSuchTypeButVarExists` diagnostic — the generic unresolved-reference
diagnostic is suppressed for the same site — and elaboration still returns
a dangling named reference value. -/
theorem c6_var_exists_diagnostic (s : St) (ctx : Ctx) (sp si : Span) (nm : String)
    (hb : s.is_builtin = false) (ha : ctx.in_actual_type = true)
    (hf : (findType s ctx.module_id nm).isNone = true)
    (hv : getVar s nm = true)
    (hs : staticFires s.scope nm = false) :
    validateType s ctx (.typeRef sp (.ident ⟨si, nm⟩) none)
      = (addTrace (report s (.noSuchTypeButVarExists sp nm))
           (.typeRef sp (.ident ⟨si, nm⟩) none),
         finalizeTop ctx (Ty.ref sp ctx.module_id (.ident ⟨si, nm⟩) none {})) := by
  have heq : findType s ctx.module_id nm = none := Option.isNone_iff_eq_none.mp hf
  rw [validateType_unfold, validateTypeCore, validateTypeRefBody]
  simp [refDispatch, identRefBranch, staticCheck, hs, heq, refFallback, hb, ha, hv]

/-- Witness for C6 at a concrete input: an unresolved name `x` with a
same-named variable in a module scope yields exactly the variable-exists
diagnostic and a reference value. -/
theorem c6_var_exists_diagnostic_witness :
    (({ scope := [{ kind := .module, vars := ["x"] }] } : St).is_builtin = false
      ∧ ({ in_actual_type := true } : Ctx).in_actual_type = true
      ∧ (findType { scope := [{ kind := .module, vars := ["x"] }] }
          ({ in_actual_type := true } : Ctx).module_id "x").isNone = true
      ∧ getVar { scope := [{ kind := .module, vars := ["x"] }] } "x" = true
      ∧ staticFires ({ scope := [{ kind := .module, vars := ["x"] }] } : St).scope "x" = false)
    ∧ validateType { scope := [{ kind := .module, vars := ["x"] }] } { in_actual_type := true }
        (.typeRef 7 (.ident ⟨8, "x"⟩) none)
      = (addTrace (report { scope := [{ kind := .module, vars := ["x"] }] }
            (.noSuchTypeButVarExists 7 "x")) (.typeRef 7 (.ident ⟨8, "x"⟩) none),
         finalizeTop { in_actual_type := true }
           (Ty.ref 7 ({ in_actual_type := true } : Ctx).module_id (.ident ⟨8, "x"⟩) none {})) :=
  ⟨⟨rfl, rfl, rfl, rfl, rfl⟩,
   c6_var_exists_diagnostic { scope := [{ kind := .module, vars := ["x"] }] }
     { in_actual_type := true } 7 8 "x" rfl rfl rfl rfl rfl⟩

/-- Counterexample to C1 as stated: validating the declaration list
`<T, T>` in non-builtin mode reports exactly ONE `DuplicateName` diagnostic
(for the repeat occurrence only — the first occurrence inserts its name
into the seen-set and reports nothing), not two as the claim asserts. -/
theorem c1_cex_single_duplicate_diag :
    ((validateTypeParamDecl { scope := [{ kind := .module }] } {}
        ⟨10, [.mk 11 ⟨1, "T"⟩ none none, .mk 12 ⟨2, "T"⟩ none none]⟩).1.diags).length = 1 := by
  simp [validateTypeParamDecl, validateTypeParamList, validateTypeParam, validateOptType,
    dupCheckGo, registerPlaceholders, registerType, buildMap, expandTypeParams, freezeParam,
    reRegisterParams, findType, report, RTsTypeParam.name, RTsTypeParam.span,
    TyParam.name, TyParam.span, TyParam.constraint, TyParam.default, TyParam.md, cheap, substTy]

/-- C1 (amended): validating a type-parameter declaration list in which
the same name occurs twice reports exactly one `DuplicateName` diagnostic,
attributed to the second (repeat) occurrence, and returns a
`TypeParamDecl` that still contains both parameters with that name (neither
occurrence is dropped). -/
theorem c1_duplicate_param_names (s : St) (ctx : Ctx) (sp p1 p2 sn1 sn2 : Span)
    (nm : String) (hb : s.is_builtin = false) :
    (validateTypeParamDecl s ctx
        ⟨sp, [.mk p1 ⟨sn1, nm⟩ none none, .mk p2 ⟨sn2, nm⟩ none none]⟩).1.diags
      = s.diags ++ [.duplicateName sn2 nm]
    ∧ ((validateTypeParamDecl s ctx
        ⟨sp, [.mk p1 ⟨sn1, nm⟩ none none, .mk p2 ⟨sn2, nm⟩ none none]⟩).2.params.map
          TyParam.name)
      = [nm, nm] := by
  constructor <;>
    simp [validateTypeParamDecl, hb, validateTypeParamList, validateTypeParam, validateOptType,
      dupCheckGo, registerPlaceholders, buildMap, expandTypeParams, freezeParam,
      reRegisterParams, report, registerType_diags, RTsTypeParam.name, RTsTypeParam.span,
      TyParam.name, TyParam.span, TyParam.constraint, TyParam.default, TyParam.md,
      TyParamDecl.params]

/-- Witness for C1 (amended) at a concrete input `<T, T>`. -/
theorem c1_duplicate_param_names_witness :
    ({ scope := [{ kind := .module }] } : St).is_builtin = false
    ∧ ((validateTypeParamDecl { scope := [{ kind := .module }] } {}
          ⟨10, [.mk 11 ⟨1, "T"⟩ none none, .mk 12 ⟨2, "T"⟩ none none]⟩).1.diags
        = ({ scope := [{ kind := .module }] } : St).diags ++ [.duplicateName 2 "T"]
       ∧ ((validateTypeParamDecl { scope := [{ kind := .module }] } {}
            ⟨10, [.mk 11 ⟨1, "T"⟩ none none, .mk 12 ⟨2, "T"⟩ none none]⟩).2.params.map
              TyParam.name)
          = ["T", "T"]) :=
  ⟨rfl, c1_duplicate_param_names { scope := [{ kind := .module }] } {} 10 11 12 1 2 "T" rfl⟩

theorem tyTopMeta_cheap (t : Ty) : tyTopMeta (cheap t) = tyTopMeta t := by
  cases t
  case arc t => rw [cheap_arc]
  all_goals simp only [cheap, tyTopMeta]

theorem tyTopMeta_finalize (ctx : Ctx) (t : Ty) :
    tyTopMeta (finalizeTop ctx t) = tyTopMeta t := by
  rw [finalizeTop]; split
  · rfl
  · exact tyTopMeta_cheap t

theorem containsInfer_cheap (t : Ty) : containsInferType (cheap t) = containsInferType t := by
  cases t
  case arc t => rw [cheap_arc]
  all_goals simp only [cheap, containsInferType]

theorem containsInfer_finalize (ctx : Ctx) (t : Ty) :
    containsInferType (finalizeTop ctx t) = containsInferType t := by
  rw [finalizeTop]; split
  · rfl
  · exact containsInfer_cheap t

/-- Counterexample to C5 as stated: for the conditional type
`string extends number ? boolean : infer X`, whose false branch is an
`infer` capture, the produced Conditional value's own metadata flag
`contains_infer_type` is `false` (the validator builds the conditional with
default metadata), contradicting the claim that the flag is set to true. -/
theorem c5_cex_conditional_flag_default :
    (tyTopMeta (validateType { scope := [{ kind := .module }] } {}
        (.conditional 1 (.keyword 2 .string) (.keyword 3 .number) (.keyword 4 .boolean)
          (.infer 5 (.mk 6 ⟨7, "X"⟩ none none)))).2).contains_infer_type = false := by
  simp [validateType_unfold, validateTypeCore, tyTopMeta_finalize, tyTopMeta]

/-- Counterexample to C8 as stated: the keyword `intrinsic` in an ordinary
type position (not the immediate body of a type alias) outside builtin mode
reports a `NoSuchType` diagnostic for the name `intrinsic` — no
`IntrinsicIsBuiltinOnly` diagnostic is reported at that site, contradicting
the claim that every occurrence yields `IntrinsicIsBuiltinOnly`. -/
theorem c8_cex_general_position_no_such_type :
    (validateType { scope := [{ kind := .module }] } {} (.keyword 5 .intrinsic)).1.diags
      = [.noSuchType 5 "intrinsic"]
    ∧ hasIntrinsicOnlyDiag
        (validateType { scope := [{ kind := .module }] } {}
          (.keyword 5 .intrinsic)).1.diags = false := by
  constructor <;>
    simp [validateType_unfold, validateTypeCore, report, hasIntrinsicOnlyDiag, addTrace_diags]

/-- C8 (amended): outside builtin-library elaboration the keyword
`intrinsic` always recovers with the type "any", but the diagnostic kind
depends on the position: as the immediate body of a type alias it reports
`IntrinsicIsBuiltinOnly` (and the alias wrapping the "any" body is still
produced and registered); in any other type position it reports a
`NoSuchType` diagnostic for the name `intrinsic` and returns "any";
elaboration continues in both cases. -/
theorem c8_intrinsic_outside_builtin (s : St) (ctx : Ctx) (spA idsp ksp sp2 : Span)
    (nm : String) (hb : s.is_builtin = false) :
    (validateTypeAliasDecl s ctx ⟨spA, ⟨idsp, nm⟩, none, .keyword ksp .intrinsic⟩).map
        (fun r => r.1.diags)
      = some (s.diags ++ [.intrinsicIsBuiltinOnly ksp])
    ∧ (validateTypeAliasDecl s ctx ⟨spA, ⟨idsp, nm⟩, none, .keyword ksp .intrinsic⟩).map
        (fun r => r.2)
      = some (cheap (Ty.alias spA (cheap (preventExpansion (tyAny ksp))) none {}))
    ∧ validateType s ctx (.keyword sp2 .intrinsic)
        = (addTrace (report s (.noSuchType sp2 "intrinsic")) (.keyword sp2 .intrinsic),
           finalizeTop ctx (tyAny sp2)) := by
  refine ⟨?_, ?_, ?_⟩
  · simp [validateTypeAliasDecl, hb, pushScope, popScope, report, registerType_diags,
      containsInferType, tyAny]
  · simp [validateTypeAliasDecl, hb, pushScope, containsInferType, tyAny]
  · rw [validateType_unfold, validateTypeCore]
    simp [hb]

/-- Witness for C8 (amended) at concrete inputs: `type Foo = intrinsic` and
a bare `intrinsic` type position, both outside builtin mode. -/
theorem c8_intrinsic_outside_builtin_witness :
    ({ scope := [{ kind := .module }] } : St).is_builtin = false
    ∧ ((validateTypeAliasDecl { scope := [{ kind := .module }] } {}
          ⟨20, ⟨21, "Foo"⟩, none, .keyword 22 .intrinsic⟩).map (fun r => r.1.diags)
        = some (({ scope := [{ kind := .module }] } : St).diags
            ++ [.intrinsicIsBuiltinOnly 22])
       ∧ (validateTypeAliasDecl { scope := [{ kind := .module }] } {}
            ⟨20, ⟨21, "Foo"⟩, none, .keyword 22 .intrinsic⟩).map (fun r => r.2)
          = some (cheap (Ty.alias 20 (cheap (preventExpansion (tyAny 22))) none {}))
       ∧ validateType { scope := [{ kind := .module }] } {} (.keyword 23 .intrinsic)
          = (addTrace (report { scope := [{ kind := .module }] }
                (.noSuchType 23 "intrinsic")) (.keyword 23 .intrinsic),
             finalizeTop {} (tyAny 23))) :=
  ⟨rfl, c8_intrinsic_outside_builtin { scope := [{ kind := .module }] } {} 20 21 22 23 "Foo" rfl⟩


/-- C7: for an untyped array binding pattern of shape `[a, [b, c]]` (no
annotation at any level) whose node identities are distinct and not yet
recorded, the defaulter records under the outer pattern's node identity a
2-element tuple whose second element is itself a 2-element tuple with every
leaf typed "any"; and running the defaulter a second time on the same
pattern and table succeeds and leaves the recorded result for the outer
pattern unchanged (idempotence). -/
theorem c7_array_pat_default_idempotent (o i so sI sa sb sc na nb nc : Nat)
    (sy1 sy2 sy3 : String) (t0 : MutTable)
    (h0 : t0 o = none) (h1 : t0 i = none) (hne : o ≠ i) :
    ∃ t1 t2,
      defaultAnyArrayPat t0 (.mk o so [some (.ident na sa sy1 false),
          some (.array (.mk i sI [some (.ident nb sb sy2 false),
            some (.ident nc sc sy3 false)] false))] false) = some t1
      ∧ t1 o = some (Ty.tuple 0 [TupleElem.mk sa none (tyAny 0), TupleElem.mk sI none
            (Ty.tuple 0 [TupleElem.mk sb none (tyAny 0), TupleElem.mk sc none (tyAny 0)] {})] {})
      ∧ defaultAnyArrayPat t1 (.mk o so [some (.ident na sa sy1 false),
          some (.array (.mk i sI [some (.ident nb sb sy2 false),
            some (.ident nc sc sy3 false)] false))] false) = some t2
      ∧ t2 o = t1 o := by
  have hne' : i ≠ o := Ne.symm hne
  have e1 : defaultAnyArrayPat t0 (.mk o so [some (.ident na sa sy1 false),
          some (.array (.mk i sI [some (.ident nb sb sy2 false),
            some (.ident nc sc sy3 false)] false))] false)
      = some (insertIfNone (tableSet (insertIfNone t0 i
          (Ty.tuple 0 [TupleElem.mk sb none (tyAny 0), TupleElem.mk sc none (tyAny 0)] {})) i none) o
          (Ty.tuple 0 [TupleElem.mk sa none (tyAny 0), TupleElem.mk sI none
            (Ty.tuple 0 [TupleElem.mk sb none (tyAny 0), TupleElem.mk sc none (tyAny 0)] {})] {})) := by
    simp [defaultAnyArrayPat, defaultElems, insertIfNone, tableSet, elemSpan, RPat.span,
      RArrayPat.span, RArrayPat.nodeId, h1]
  have m1 : (insertIfNone (tableSet (insertIfNone t0 i
        (Ty.tuple 0 [TupleElem.mk sb none (tyAny 0), TupleElem.mk sc none (tyAny 0)] {})) i none) o
        (Ty.tuple 0 [TupleElem.mk sa none (tyAny 0), TupleElem.mk sI none
            (Ty.tuple 0 [TupleElem.mk sb none (tyAny 0), TupleElem.mk sc none (tyAny 0)] {})] {})) o
      = some (Ty.tuple 0 [TupleElem.mk sa none (tyAny 0), TupleElem.mk sI none
            (Ty.tuple 0 [TupleElem.mk sb none (tyAny 0), TupleElem.mk sc none (tyAny 0)] {})] {}) := by
    simp [insertIfNone, tableSet, h0, hne, hne']
  have m2 : (insertIfNone (tableSet (insertIfNone t0 i
        (Ty.tuple 0 [TupleElem.mk sb none (tyAny 0), TupleElem.mk sc none (tyAny 0)] {})) i none) o
        (Ty.tuple 0 [TupleElem.mk sa none (tyAny 0), TupleElem.mk sI none
            (Ty.tuple 0 [TupleElem.mk sb none (tyAny 0), TupleElem.mk sc none (tyAny 0)] {})] {})) i = none := by
    simp [insertIfNone, tableSet, hne, hne']
  refine ⟨(insertIfNone (tableSet (insertIfNone t0 i
          (Ty.tuple 0 [TupleElem.mk sb none (tyAny 0), TupleElem.mk sc none (tyAny 0)] {})) i none) o
          (Ty.tuple 0 [TupleElem.mk sa none (tyAny 0), TupleElem.mk sI none
            (Ty.tuple 0 [TupleElem.mk sb none (tyAny 0), TupleElem.mk sc none (tyAny 0)] {})] {})), (insertIfNone (tableSet (insertIfNone (insertIfNone (tableSet (insertIfNone t0 i
          (Ty.tuple 0 [TupleElem.mk sb none (tyAny 0), TupleElem.mk sc none (tyAny 0)] {})) i none) o
          (Ty.tuple 0 [TupleElem.mk sa none (tyAny 0), TupleElem.mk sI none
            (Ty.tuple 0 [TupleElem.mk sb none (tyAny 0), TupleElem.mk sc none (tyAny 0)] {})] {})) i
          (Ty.tuple 0 [TupleElem.mk sb none (tyAny 0), TupleElem.mk sc none (tyAny 0)] {})) i none) o
          (Ty.tuple 0 [TupleElem.mk sa none (tyAny 0), TupleElem.mk sI none
            (Ty.tuple 0 [TupleElem.mk sb none (tyAny 0), TupleElem.mk sc none (tyAny 0)] {})] {})), e1, m1, ?_, ?_⟩
  · simp [defaultAnyArrayPat, defaultElems, elemSpan, RPat.span,
      RArrayPat.span, RArrayPat.nodeId, insertIfNone, tableSet, m2, hne, hne', h0, h1]
  · simp [insertIfNone, tableSet, m1, hne, hne', h0, h1]

/-- Witness for C7 at a concrete input: the pattern `[a, [b, c]]` with
outer node id 1, inner node id 2, and an empty mutation table. -/
theorem c7_array_pat_default_idempotent_witness :
    ((fun _ => none : MutTable) 1 = none ∧ (fun _ => none : MutTable) 2 = none
      ∧ (1 : Nat) ≠ 2)
    ∧ (∃ t1 t2,
        defaultAnyArrayPat (fun _ => none) (.mk 1 50 [some (.ident 0 51 "a" false),
            some (.array (.mk 2 52 [some (.ident 0 53 "b" false),
              some (.ident 0 54 "c" false)] false))] false) = some t1
        ∧ t1 1 = some (Ty.tuple 0 [TupleElem.mk 51 none (tyAny 0),
            TupleElem.mk 52 none (Ty.tuple 0 [TupleElem.mk 53 none (tyAny 0),
              TupleElem.mk 54 none (tyAny 0)] {})] {})
        ∧ defaultAnyArrayPat t1 (.mk 1 50 [some (.ident 0 51 "a" false),
            some (.array (.mk 2 52 [some (.ident 0 53 "b" false),
              some (.ident 0 54 "c" false)] false))] false) = some t2
        ∧ t2 1 = t1 1) :=
  ⟨⟨rfl, rfl, by decide⟩,
   c7_array_pat_default_idempotent 1 2 50 52 51 53 54 0 0 0 "a" "b" "c"
     (fun _ => none) rfl rfl (by decide)⟩

mutual

/-- Whether a type-syntax node contains an `infer` capture anywhere
(including inside reference type arguments and capture constraints). -/
def hasInferNode : RTsType → Bool
  | .keyword _ _ => false
  | .array _ e => hasInferNode e
  | .tuple _ es => hasInferElems es
  | .union _ ts => hasInferList ts
  | .conditional _ a b c d =>
      hasInferNode a || hasInferNode b || hasInferNode c || hasInferNode d
  | .paren _ i => hasInferNode i
  | .typeRef _ _ args => hasInferArgs args
  | .infer _ _ => true

/-- Infer occurrence in a list of types. -/
def hasInferList : List RTsType → Bool
  | [] => false
  | t :: ts => hasInferNode t || hasInferList ts

/-- Infer occurrence in tuple members. -/
def hasInferElems : List RTsTupleElement → Bool
  | [] => false
  | .mk _ _ t :: es => hasInferNode t || hasInferElems es

/-- Infer occurrence in an optional type. -/
def hasInferOpt : Option RTsType → Bool
  | none => false
  | some t => hasInferNode t

/-- Infer occurrence in optional instantiation arguments. -/
def hasInferArgs : Option RInst → Bool
  | none => false
  | some (.mk _ ps) => hasInferList ps

end

mutual

/-- The names a node's validation may register as type-parameter
placeholders: the capture names of its `infer` nodes (a capture's
constraint and default may register further captures). -/
def inferNames : RTsType → List String
  | .keyword _ _ => []
  | .array _ e => inferNames e
  | .tuple _ es => inferNamesElems es
  | .union _ ts => inferNamesList ts
  | .conditional _ a b c d =>
      inferNames a ++ inferNames b ++ inferNames c ++ inferNames d
  | .paren _ i => inferNames i
  | .typeRef _ _ args => inferNamesArgs args
  | .infer _ p => inferNamesParam p

/-- Registered capture names of a list of types. -/
def inferNamesList : List RTsType → List String
  | [] => []
  | t :: ts => inferNames t ++ inferNamesList ts

/-- Registered capture names of tuple members. -/
def inferNamesElems : List RTsTupleElement → List String
  | [] => []
  | .mk _ _ t :: es => inferNames t ++ inferNamesElems es

/-- Registered capture names of an optional type. -/
def inferNamesOpt : Option RTsType → List String
  | none => []
  | some t => inferNames t

/-- Registered names of a type-parameter node: its own name plus any
captures inside its constraint or default. -/
def inferNamesParam : RTsTypeParam → List String
  | .mk _ n c d => n.sym :: (inferNamesOpt c ++ inferNamesOpt d)

/-- Registered capture names of optional instantiation arguments. -/
def inferNamesArgs : Option RInst → List String
  | none => []
  | some (.mk _ ps) => inferNamesList ps

end

mutual

/-- The identifier head symbols of every type reference occurring in a
node (qualified heads are not resolved through the scope chain and are
not collected). -/
def refHeadSyms : RTsType → List String
  | .keyword _ _ => []
  | .array _ e => refHeadSyms e
  | .tuple _ es => refHeadSymsElems es
  | .union _ ts => refHeadSymsList ts
  | .conditional _ a b c d =>
      refHeadSyms a ++ refHeadSyms b ++ refHeadSyms c ++ refHeadSyms d
  | .paren _ i => refHeadSyms i
  | .typeRef _ n args =>
      (match n with
       | .ident i => [i.sym]
       | .qualified _ _ => []) ++ refHeadSymsArgs args
  | .infer _ p => refHeadSymsParam p

/-- Reference heads of a list of types. -/
def refHeadSymsList : List RTsType → List String
  | [] => []
  | t :: ts => refHeadSyms t ++ refHeadSymsList ts

/-- Reference heads of tuple members. -/
def refHeadSymsElems : List RTsTupleElement → List String
  | [] => []
  | .mk _ _ t :: es => refHeadSyms t ++ refHeadSymsElems es

/-- Reference heads of an optional type. -/
def refHeadSymsOpt : Option RTsType → List String
  | none => []
  | some t => refHeadSyms t

/-- Reference heads of a type-parameter node. -/
def refHeadSymsParam : RTsTypeParam → List String
  | .mk _ _ c d => refHeadSymsOpt c ++ refHeadSymsOpt d

/-- Reference heads of optional instantiation arguments. -/
def refHeadSymsArgs : Option RInst → List String
  | none => []
  | some (.mk _ ps) => refHeadSymsList ps

end

/-- Whether a value's normal form is a type-parameter placeholder (the
condition of the reference validator's early return). -/
def isParamTy (t : Ty) : Bool :=
  match normalize t with
  | .param _ => true
  | _ => false

/-- Whether the scope chain stores, under the given name, any type whose
normal form is a type-parameter placeholder (the situation in which a
reference to that name returns the stored placeholder and discards its
type arguments). -/
def scopeHasParam (s : St) (n : String) : Bool :=
  s.scope.any (fun f => f.types.any (fun p => p.1 == n && isParamTy p.2))

mutual

/-- Structural infer-capture containment of a semantic value: an `infer`
node occurs somewhere in the value (metadata flags are not consulted, so
this containment is invariant under structural equality). -/
def hasInferTy : Ty → Bool
  | .arc t => hasInferTy t
  | .keyword _ _ _ => false
  | .array _ e _ => hasInferTy e
  | .tuple _ es _ => hasInferTyElems es
  | .union _ ts _ => hasInferTyList ts
  | .conditional _ c e t f _ =>
      hasInferTy c || hasInferTy e || hasInferTy t || hasInferTy f
  | .infer _ _ _ => true
  | .param p => hasInferTyParam p
  | .ref _ _ _ a _ => hasInferTyOptInst a
  | .alias _ t d _ => hasInferTy t || hasInferTyOptDecl d
  | .intrinsicKw _ _ a _ => hasInferTyInst a

/-- Structural containment over a list of values. -/
def hasInferTyList : List Ty → Bool
  | [] => false
  | t :: ts => hasInferTy t || hasInferTyList ts

/-- Structural containment over tuple members. -/
def hasInferTyElems : List TupleElem → Bool
  | [] => false
  | .mk _ _ t :: es => hasInferTy t || hasInferTyElems es

/-- Structural containment over an optional value. -/
def hasInferTyOpt : Option Ty → Bool
  | none => false
  | some t => hasInferTy t

/-- Structural containment of a semantic type parameter. -/
def hasInferTyParam : TyParam → Bool
  | .mk _ _ c d _ => hasInferTyOpt c || hasInferTyOpt d

/-- Structural containment of an instantiation. -/
def hasInferTyInst : TyParamInst → Bool
  | .mk _ ps => hasInferTyList ps

/-- Structural containment of an optional instantiation. -/
def hasInferTyOptInst : Option TyParamInst → Bool
  | none => false
  | some a => hasInferTyInst a

/-- Structural containment of an optional declaration list. -/
def hasInferTyOptDecl : Option TyParamDecl → Bool
  | none => false
  | some (.mk _ ps) => hasInferTyParams ps

/-- Structural containment of a parameter list. -/
def hasInferTyParams : List TyParam → Bool
  | [] => false
  | p :: ps => hasInferTyParam p || hasInferTyParams ps

end

theorem hasInferTy_arc (t : Ty) : hasInferTy (Ty.arc t) = hasInferTy t := by
  simp [hasInferTy]

theorem hasInferTy_cheap (t : Ty) : hasInferTy (cheap t) = hasInferTy t := by
  cases t
  case arc t => rw [cheap_arc]
  all_goals simp only [cheap, hasInferTy_arc]

theorem hasInferTyList_map_cheap (l : List Ty) :
    hasInferTyList (l.map cheap) = hasInferTyList l := by
  induction l with
  | nil => rfl
  | cons t ts ih => simp [hasInferTyList, hasInferTy_cheap, ih]

theorem hasInferTyList_of_mem {l : List Ty} {x : Ty} (hx : x ∈ l)
    (h : hasInferTy x = true) : hasInferTyList l = true := by
  induction l with
  | nil => cases hx
  | cons t ts ih =>
      rcases List.mem_cons.mp hx with rfl | hx'
      · simp [hasInferTyList, h]
      · simp [hasInferTyList, ih hx']

mutual

/-- Structural infer containment implies the transitive containment check
(which also consults metadata flags). -/
theorem containsInfer_of_hasInferTy :
    (t : Ty) → hasInferTy t = true → containsInferType t = true
  | .arc t, h => by
      rw [hasInferTy] at h
      rw [containsInferType]
      exact containsInfer_of_hasInferTy t h
  | .keyword _ _ _, h => by rw [hasInferTy] at h; exact absurd h (by simp)
  | .array _ e _, h => by
      rw [hasInferTy] at h
      rw [containsInferType, containsInfer_of_hasInferTy e h]
      simp
  | .tuple _ es _, h => by
      rw [hasInferTy] at h
      rw [containsInferType, elemsContain_of_hasInferTy es h]
      simp
  | .union _ ts _, h => by
      rw [hasInferTy] at h
      rw [containsInferType, listContain_of_hasInferTy ts h]
      simp
  | .conditional _ c e t f _, h => by
      rw [hasInferTy] at h
      rw [containsInferType]
      rcases Bool.or_eq_true_iff.mp h with h3 | hf
      · rcases Bool.or_eq_true_iff.mp h3 with h2 | ht
        · rcases Bool.or_eq_true_iff.mp h2 with hc | he
          · rw [containsInfer_of_hasInferTy c hc]; simp
          · rw [containsInfer_of_hasInferTy e he]; simp
        · rw [containsInfer_of_hasInferTy t ht]; simp
      · rw [containsInfer_of_hasInferTy f hf]; simp
  | .infer _ _ _, _ => by rw [containsInferType]
  | .param p, h => by
      rw [hasInferTy] at h
      rw [containsInferType]
      exact paramContains_of_hasInferTy p h
  | .ref _ _ _ a _, h => by
      rw [hasInferTy] at h
      rw [containsInferType, optInstContain_of_hasInferTy a h]
      simp
  | .alias _ t d _, h => by
      rw [hasInferTy] at h
      rw [containsInferType]
      rcases Bool.or_eq_true_iff.mp h with ht | hd
      · rw [containsInfer_of_hasInferTy t ht]; simp
      · rw [optDeclContain_of_hasInferTy d hd]; simp
  | .intrinsicKw _ _ a _, h => by
      rw [hasInferTy] at h
      rw [containsInferType, instContain_of_hasInferTy a h]
      simp

/-- List version. -/
theorem listContain_of_hasInferTy :
    (l : List Ty) → hasInferTyList l = true → listContain l = true
  | [], h => by rw [hasInferTyList] at h; exact absurd h (by simp)
  | t :: ts, h => by
      rw [hasInferTyList] at h
      rw [listContain]
      rcases Bool.or_eq_true_iff.mp h with ht | hts
      · rw [containsInfer_of_hasInferTy t ht]; simp
      · rw [listContain_of_hasInferTy ts hts]; simp

/-- Tuple-member version. -/
theorem elemsContain_of_hasInferTy :
    (l : List TupleElem) → hasInferTyElems l = true → elemsContain l = true
  | [], h => by rw [hasInferTyElems] at h; exact absurd h (by simp)
  | .mk _ _ t :: es, h => by
      rw [hasInferTyElems] at h
      rw [elemsContain]
      rcases Bool.or_eq_true_iff.mp h with ht | hes
      · rw [containsInfer_of_hasInferTy t ht]; simp
      · rw [elemsContain_of_hasInferTy es hes]; simp

/-- Optional version. -/
theorem optContain_of_hasInferTy :
    (o : Option Ty) → hasInferTyOpt o = true → optContain o = true
  | none, h => by rw [hasInferTyOpt] at h; exact absurd h (by simp)
  | some t, h => by
      rw [hasInferTyOpt] at h
      rw [optContain]
      exact containsInfer_of_hasInferTy t h

/-- Parameter version. -/
theorem paramContains_of_hasInferTy :
    (p : TyParam) → hasInferTyParam p = true → paramContains p = true
  | .mk _ _ c d _, h => by
      rw [hasInferTyParam] at h
      rw [paramContains]
      rcases Bool.or_eq_true_iff.mp h with hc | hd
      · rw [optContain_of_hasInferTy c hc]; simp
      · rw [optContain_of_hasInferTy d hd]; simp

/-- Instantiation version. -/
theorem instContain_of_hasInferTy :
    (a : TyParamInst) → hasInferTyInst a = true → instContain a = true
  | .mk _ ps, h => by
      rw [hasInferTyInst] at h
      rw [instContain]
      exact listContain_of_hasInferTy ps h

/-- Optional-instantiation version. -/
theorem optInstContain_of_hasInferTy :
    (a : Option TyParamInst) → hasInferTyOptInst a = true → optInstContain a = true
  | none, h => by rw [hasInferTyOptInst] at h; exact absurd h (by simp)
  | some a, h => by
      rw [hasInferTyOptInst] at h
      rw [optInstContain]
      exact instContain_of_hasInferTy a h

/-- Optional-declaration version. -/
theorem optDeclContain_of_hasInferTy :
    (d : Option TyParamDecl) → hasInferTyOptDecl d = true → optDeclContain d = true
  | none, h => by rw [hasInferTyOptDecl] at h; exact absurd h (by simp)
  | some (.mk _ ps), h => by
      rw [hasInferTyOptDecl] at h
      rw [optDeclContain]
      exact paramsContain_of_hasInferTy ps h

/-- Parameter-list version. -/
theorem paramsContain_of_hasInferTy :
    (l : List TyParam) → hasInferTyParams l = true → paramsContain l = true
  | [], h => by rw [hasInferTyParams] at h; exact absurd h (by simp)
  | p :: ps, h => by
      rw [hasInferTyParams] at h
      rw [paramsContain]
      rcases Bool.or_eq_true_iff.mp h with hp | hps
      · rw [paramContains_of_hasInferTy p hp]; simp
      · rw [paramsContain_of_hasInferTy ps hps]; simp

end

theorem typeEq_cross_false (x y : Ty)
    (harcl : ∀ (a : Ty), x = a.arc → False)
    (harcr : ∀ (b : Ty), y = b.arc → False)
    (hkw : ∀ (s1 : Span) (k : KeywordKind) (m1 : Meta) (s2 : Span) (k' : KeywordKind) (m2 : Meta),
      x = Ty.keyword s1 k m1 → y = Ty.keyword s2 k' m2 → False)
    (harr : ∀ (s1 : Span) (e : Ty) (m1 : Meta) (s2 : Span) (e' : Ty) (m2 : Meta),
      x = Ty.array s1 e m1 → y = Ty.array s2 e' m2 → False)
    (htup : ∀ (s1 : Span) (es : List TupleElem) (m1 : Meta) (s2 : Span) (es' : List TupleElem)
      (m2 : Meta), x = Ty.tuple s1 es m1 → y = Ty.tuple s2 es' m2 → False)
    (hun : ∀ (s1 : Span) (ts : List Ty) (m1 : Meta) (s2 : Span) (ts' : List Ty) (m2 : Meta),
      x = Ty.union s1 ts m1 → y = Ty.union s2 ts' m2 → False)
    (hcond : ∀ (s1 : Span) (c e t f : Ty) (m1 : Meta) (s2 : Span) (c' e' t' f' : Ty) (m2 : Meta),
      x = Ty.conditional s1 c e t f m1 → y = Ty.conditional s2 c' e' t' f' m2 → False)
    (hinf : ∀ (s1 : Span) (p : TyParam) (m1 : Meta) (s2 : Span) (p' : TyParam) (m2 : Meta),
      x = Ty.infer s1 p m1 → y = Ty.infer s2 p' m2 → False)
    (hpar : ∀ (p p' : TyParam), x = Ty.param p → y = Ty.param p' → False)
    (href : ∀ (s1 : Span) (c : Nat) (n : REntityName) (a : Option TyParamInst) (m1 : Meta)
      (s2 : Span) (c' : Nat) (n' : REntityName) (a' : Option TyParamInst) (m2 : Meta),
      x = Ty.ref s1 c n a m1 → y = Ty.ref s2 c' n' a' m2 → False)
    (hal : ∀ (s1 : Span) (t : Ty) (d : Option TyParamDecl) (m1 : Meta) (s2 : Span) (t' : Ty)
      (d' : Option TyParamDecl) (m2 : Meta),
      x = Ty.alias s1 t d m1 → y = Ty.alias s2 t' d' m2 → False)
    (hik : ∀ (s1 : Span) (k : String) (a : TyParamInst) (m1 : Meta) (s2 : Span) (k' : String)
      (a' : TyParamInst) (m2 : Meta),
      x = Ty.intrinsicKw s1 k a m1 → y = Ty.intrinsicKw s2 k' a' m2 → False) :
    typeEq x y = false := by
  cases x <;> cases y <;>
    first
      | exact (harcl _ rfl).elim
      | exact (harcr _ rfl).elim
      | exact (hkw _ _ _ _ _ _ rfl rfl).elim
      | exact (harr _ _ _ _ _ _ rfl rfl).elim
      | exact (htup _ _ _ _ _ _ rfl rfl).elim
      | exact (hun _ _ _ _ _ _ rfl rfl).elim
      | exact (hcond _ _ _ _ _ _ _ _ _ _ _ _ rfl rfl).elim
      | exact (hinf _ _ _ _ _ _ rfl rfl).elim
      | exact (hpar _ _ rfl rfl).elim
      | exact (href _ _ _ _ _ _ _ _ _ _ rfl rfl).elim
      | exact (hal _ _ _ _ _ _ _ _ rfl rfl).elim
      | exact (hik _ _ _ _ _ _ _ _ rfl rfl).elim
      | simp [typeEq]

/-- Structurally equal values agree on structural infer-capture
containment: structural equality compares constructors recursively (only
spans, metadata and freeze wrappers are ignored), and structural
containment reads none of the ignored components. -/
theorem hasInferTy_typeEq : ∀ a b : Ty, typeEq a b = true → hasInferTy a = hasInferTy b := by
  refine typeEq.induct
    (fun a b => typeEq a b = true → hasInferTy a = hasInferTy b)
    (fun i j => instEq i j = true → hasInferTyInst i = hasInferTyInst j)
    (fun l m => listEq l m = true → hasInferTyList l = hasInferTyList m)
    (fun d e => optDeclEq d e = true → hasInferTyOptDecl d = hasInferTyOptDecl e)
    (fun l m => paramsEq l m = true → hasInferTyParams l = hasInferTyParams m)
    (fun p q => paramEq p q = true → hasInferTyParam p = hasInferTyParam q)
    (fun c d => optTyEq c d = true → hasInferTyOpt c = hasInferTyOpt d)
    (fun a b => optInstEq a b = true → hasInferTyOptInst a = hasInferTyOptInst b)
    (fun l m => elemsEq l m = true → hasInferTyElems l = hasInferTyElems m)
    ?_ ?_ ?_ ?_ ?_ ?_ ?_ ?_ ?_ ?_ ?_ ?_ ?_ ?_ ?_ ?_ ?_ ?_ ?_ ?_ ?_ ?_ ?_ ?_ ?_ ?_ ?_ ?_
    ?_ ?_ ?_ ?_ ?_
  · intro a b ih h
    rw [typeEq_arc_left] at h
    rw [hasInferTy_arc]
    exact ih h
  · intro a b _ ih h
    rw [typeEq_arc_right] at h
    rw [hasInferTy_arc]
    exact ih h
  · intro _ _ _ _ _ _ _
    simp [hasInferTy]
  · intro _ e _ _ e' _ ih h
    simp only [hasInferTy]
    exact ih (by simpa [typeEq] using h)
  · intro _ es _ _ es' _ ih h
    simp only [hasInferTy]
    exact ih (by simpa [typeEq] using h)
  · intro _ ts _ _ ts' _ ih h
    simp only [hasInferTy]
    exact ih (by simpa [typeEq] using h)
  · intro _ c e t f _ _ c' e' t' f' _ ih1 ih2 ih3 ih4 h
    simp only [typeEq, Bool.and_eq_true] at h
    obtain ⟨⟨⟨h1, h2⟩, h3⟩, h4⟩ := h
    simp only [hasInferTy, ih1 h1, ih2 h2, ih3 h3, ih4 h4]
  · intro _ p _ _ p' _ ih h
    simp only [hasInferTy]
  · intro p p' ih h
    simp only [hasInferTy]
    exact ih (by simpa [typeEq] using h)
  · intro _ _ _ a _ _ _ _ a' _ ih h
    simp only [typeEq, Bool.and_eq_true] at h
    simp only [hasInferTy]
    exact ih h.2
  · intro _ t d _ _ t' d' _ ih1 ih4 h
    simp only [typeEq, Bool.and_eq_true] at h
    simp only [hasInferTy, ih1 h.1, ih4 h.2]
  · intro _ _ a _ _ _ a' _ ih h
    simp only [typeEq, Bool.and_eq_true] at h
    simp only [hasInferTy]
    exact ih h.2
  · intro x y h1 h2 h3 h4 h5 h6 h7 h8 h9 h10 h11 h12 h
    rw [typeEq_cross_false x y h1 h2 h3 h4 h5 h6 h7 h8 h9 h10 h11 h12] at h
    exact absurd h (by simp)
  · intro _ ps _ ps' ih h
    simp only [hasInferTyInst]
    exact ih (by simpa [instEq] using h)
  · intro _
    rfl
  · intro t ts t' ts' ih1 ih3 h
    simp only [listEq, Bool.and_eq_true] at h
    simp only [hasInferTyList, ih1 h.1, ih3 h.2]
  · intro x y hn hc h
    cases x <;> cases y
    · exact (hn rfl rfl).elim
    · simp [listEq] at h
    · simp [listEq] at h
    · exact (hc _ _ _ _ rfl rfl).elim
  · intro _
    rfl
  · intro _ ps _ ps' ih h
    simp only [hasInferTyOptDecl]
    exact ih (by simpa [optDeclEq] using h)
  · intro x y hn hc h
    match x, y, hn, hc with
    | none, none, hn, _ => exact (hn rfl rfl).elim
    | none, some (.mk _ _), _, _ => simp [optDeclEq] at h
    | some (.mk _ _), none, _, _ => simp [optDeclEq] at h
    | some (.mk _ _), some (.mk _ _), _, hc => exact (hc _ _ _ _ rfl rfl).elim
  · intro _
    rfl
  · intro p ps p' ps' ih6 ih5 h
    simp only [paramsEq, Bool.and_eq_true] at h
    simp only [hasInferTyParams, ih6 h.1, ih5 h.2]
  · intro x y hn hc h
    cases x <;> cases y
    · exact (hn rfl rfl).elim
    · simp [paramsEq] at h
    · simp [paramsEq] at h
    · exact (hc _ _ _ _ rfl rfl).elim
  · intro _ _ c d _ _ _ c' d' _ ih1 ih2 h
    simp only [paramEq, Bool.and_eq_true] at h
    obtain ⟨⟨_, hc⟩, hd⟩ := h
    simp only [hasInferTyParam, ih1 hc, ih2 hd]
  · intro _
    rfl
  · intro t t' ih h
    simp only [hasInferTyOpt]
    exact ih (by simpa [optTyEq] using h)
  · intro x y hn hc h
    cases x <;> cases y
    · exact (hn rfl rfl).elim
    · simp [optTyEq] at h
    · simp [optTyEq] at h
    · exact (hc _ _ rfl rfl).elim
  · intro _
    rfl
  · intro a a' ih h
    simp only [hasInferTyOptInst]
    exact ih (by simpa [optInstEq] using h)
  · intro x y hn hc h
    cases x <;> cases y
    · exact (hn rfl rfl).elim
    · simp [optInstEq] at h
    · simp [optInstEq] at h
    · exact (hc _ _ rfl rfl).elim
  · intro _
    rfl
  · intro _ _ t es _ _ t' es' ih1 ih9 h
    simp only [elemsEq, Bool.and_eq_true] at h
    obtain ⟨⟨_, ht⟩, hes⟩ := h
    simp only [hasInferTyElems, ih1 ht, ih9 hes]
  · intro x y hn hc h
    match x, y, hn, hc with
    | [], [], hn, _ => exact (hn rfl rfl).elim
    | [], .mk _ _ _ :: _, _, _ => simp [elemsEq] at h
    | .mk _ _ _ :: _, [], _, _ => simp [elemsEq] at h
    | .mk _ _ _ :: _, .mk _ _ _ :: _, _, hc => exact (hc _ _ _ _ _ _ _ _ rfl rfl).elim

theorem hasInferTyList_iff (l : List Ty) :
    hasInferTyList l = true ↔ ∃ x ∈ l, hasInferTy x = true := by
  induction l with
  | nil => simp [hasInferTyList]
  | cons t ts ih => simp [hasInferTyList, ih, List.mem_cons, or_and_right, exists_or]

/-- Structural infer containment survives the union deduplication: a
dropped member is structurally equal to its kept first occurrence, and
structurally equal values agree on containment. -/
theorem hasInferTyList_dedup {l : List Ty} (h : hasInferTyList l = true) :
    hasInferTyList (dedupType l) = true := by
  obtain ⟨x, hx, hix⟩ := (hasInferTyList_iff l).mp h
  obtain ⟨u, hu, he⟩ := dedupType_complete l x hx
  exact hasInferTyList_of_mem hu ((hasInferTy_typeEq u x he).trans hix)

theorem hasInferTy_finalize (ctx : Ctx) (t : Ty) :
    hasInferTy (finalizeTop ctx t) = hasInferTy t := by
  rw [finalizeTop]; split
  · rfl
  · exact hasInferTy_cheap t

theorem addTrace_scope (s : St) (t : RTsType) : (addTrace s t).scope = s.scope := rfl

theorem staticCheck_scope (s : St) (i : RIdent) : (staticCheck s i).scope = s.scope := by
  unfold staticCheck; split <;> rfl

theorem reportUnresolve_scope (s : St) (ctx : Ctx) (sp : Span) (n : REntityName) :
    (reportUnresolve s ctx sp n).scope = s.scope := by
  unfold reportUnresolve
  cases n <;> simp only [] <;> split <;> rfl

theorem refFallback_scope (s : St) (ctx : Ctx) (sp : Span) (n : REntityName)
    (ta : Option TyParamInst) (ci rep : Bool) :
    (refFallback s ctx sp n ta ci rep).1.scope = s.scope := by
  unfold refFallback
  split
  · exact reportUnresolve_scope ..
  · rfl

theorem identRefBranch_scope (s : St) (ctx : Ctx) (sp : Span) (i : RIdent)
    (ta : Option TyParamInst) :
    (identRefBranch s ctx sp i ta).1.scope = s.scope := by
  unfold identRefBranch
  dsimp only
  split
  · split
    · exact staticCheck_scope ..
    · split
      · rw [refFallback_scope, report_scope, staticCheck_scope]
      · rw [refFallback_scope, staticCheck_scope]
  · split
    · rw [refFallback_scope, report_scope, staticCheck_scope]
    · rw [refFallback_scope, staticCheck_scope]

theorem refDispatch_scope (s : St) (ctx : Ctx) (sp : Span) (n : REntityName)
    (ta : Option TyParamInst) :
    (refDispatch s ctx sp n ta).1.scope = s.scope := by
  unfold refDispatch
  split
  · split
    · split
      · rfl
      · rw [refFallback_scope]
    · rw [identRefBranch_scope]
  · rw [identRefBranch_scope]
  · rw [refFallback_scope]

theorem findType_scope_eq {s s' : St} (h : s.scope = s'.scope) (m : Nat) (n : String) :
    findType s m n = findType s' m n := by
  unfold findType; rw [h]

theorem scopeHasParam_scope_eq {s s' : St} (h : s.scope = s'.scope) (n : String) :
    scopeHasParam s n = scopeHasParam s' n := by
  unfold scopeHasParam; rw [h]

theorem scanParams_fst_none :
    (l : List Ty) → (ci : Bool) → (∀ t ∈ l, isParamTy t = false) →
      (scanParams l ci).1 = none
  | [], ci, _ => by rw [scanParams]
  | t :: ts, ci, h => by
      rw [scanParams]
      have hp := h t (List.mem_cons_self ..)
      rw [isParamTy] at hp
      split
      · next heq => rw [heq] at hp; simp at hp
      · exact scanParams_fst_none ts _ (fun u hu => h u (List.mem_cons_of_mem _ hu))

theorem mem_scope_hits (scope : List Frame) (n : String) :
    ∀ t ∈ scope.foldr
        (fun f acc =>
          f.types.filterMap (fun p => if p.1 == n then some p.2 else none) ++ acc) [],
      ∃ f ∈ scope, ∃ p ∈ f.types, (p.1 == n) = true ∧ p.2 = t := by
  induction scope with
  | nil => simp
  | cons f rest ih =>
      intro t ht
      rw [List.foldr_cons] at ht
      rcases List.mem_append.mp ht with hin | hrest
      · obtain ⟨p, hp, hpt⟩ := List.mem_filterMap.mp hin
        refine ⟨f, List.mem_cons_self .., p, hp, ?_⟩
        revert hpt
        split
        · next heq => intro hpt; cases hpt; exact ⟨heq, rfl⟩
        · intro hpt; cases hpt
      · obtain ⟨f', hf', hp⟩ := ih t hrest
        exact ⟨f', List.mem_cons_of_mem _ hf', hp⟩

theorem mem_findType_hits {s : St} {m : Nat} {n : String} {tys : List Ty}
    (hf : findType s m n = some tys) :
    ∀ t ∈ tys, ∃ f ∈ s.scope, ∃ p ∈ f.types, (p.1 == n) = true ∧ p.2 = t := by
  simp only [findType] at hf
  split at hf
  · exact absurd hf (by simp)
  · cases hf
    exact mem_scope_hits s.scope n

theorem findType_no_param {s : St} {m : Nat} {n : String} {tys : List Ty}
    (hs : scopeHasParam s n = false) (hf : findType s m n = some tys) :
    ∀ t ∈ tys, isParamTy t = false := by
  intro t ht
  obtain ⟨f, hfmem, p, hpmem, hpn, hpt⟩ := mem_findType_hits hf t ht
  by_contra hparam
  rw [Bool.not_eq_false] at hparam
  have : scopeHasParam s n = true := by
    unfold scopeHasParam
    rw [List.any_eq_true]
    refine ⟨f, hfmem, ?_⟩
    rw [List.any_eq_true]
    exact ⟨p, hpmem, by rw [hpn, hpt, hparam]; rfl⟩
  rw [this] at hs; cases hs

theorem scopeHasParam_addTrace (s : St) (t : RTsType) (n : String) :
    scopeHasParam (addTrace s t) n = scopeHasParam s n := rfl

theorem scopeHasParam_registerType (s : St) (m : String) (ty : Ty) (n : String)
    (h : scopeHasParam (registerType s m ty) n = true) :
    scopeHasParam s n = true ∨ n = m := by
  unfold registerType at h
  revert h
  split
  · exact fun h => Or.inl h
  · next f rest heq =>
      intro h
      simp only [scopeHasParam, heq, List.any_cons, List.any_eq_true, Bool.or_eq_true,
        Bool.and_eq_true] at h ⊢
      rcases h with (⟨hq, hp⟩ | hf) | hrest
      · exact Or.inr (beq_iff_eq.mp hq).symm
      · exact Or.inl (Or.inl hf)
      · exact Or.inl (Or.inr hrest)

mutual

/-- Scope evolution: validating a node can add type-parameter placeholders
to the scope only under the capture names its `infer` nodes register. -/
theorem evolve_validateType (s : St) (ctx : Ctx) (t : RTsType) (n : String)
    (h : scopeHasParam (validateType s ctx t).1 n = true) :
    scopeHasParam s n = true ∨ n ∈ inferNames t := by
  rw [validateType_unfold] at h
  rw [scopeHasParam_addTrace] at h
  exact evolve_validateCore s _ t n h
termination_by (sizeOf t, 1)

theorem evolve_validateCore (s : St) (ctx : Ctx) (t : RTsType) (n : String)
    (h : scopeHasParam (validateTypeCore s ctx t).1 n = true) :
    scopeHasParam s n = true ∨ n ∈ inferNames t := by
  cases t with
  | keyword sp k =>
      rw [validateTypeCore] at h
      revert h
      split <;> exact fun h => Or.inl h
  | array sp e =>
      rw [validateTypeCore] at h
      rcases evolve_validateType s ctx e n h with hl | hr
      · exact Or.inl hl
      · right; rw [inferNames]; exact hr
  | tuple sp es =>
      rw [validateTypeCore] at h
      rcases evolve_validateElems s ctx es n h with hl | hr
      · exact Or.inl hl
      · right; rw [inferNames]; exact hr
  | union sp ts =>
      rw [validateTypeCore] at h
      rcases evolve_validateList s ctx ts n h with hl | hr
      · exact Or.inl hl
      · right; rw [inferNames]; exact hr
  | conditional sp a b c d =>
      rw [validateTypeCore] at h
      have h3 := evolve_validateType _ ctx d n h
      rcases h3 with h3 | hrd
      · have h2 := evolve_validateType _ ctx c n h3
        rcases h2 with h2 | hrc
        · have h1 := evolve_validateType _ ctx b n h2
          rcases h1 with h1 | hrb
          · have h0 := evolve_validateType s ctx a n h1
            rcases h0 with h0 | hra
            · exact Or.inl h0
            · right; rw [inferNames]; simp [List.mem_append]; exact Or.inl hra
          · right; rw [inferNames]; simp [List.mem_append]
            exact Or.inr (Or.inl hrb)
        · right; rw [inferNames]; simp [List.mem_append]
          exact Or.inr (Or.inr (Or.inl hrc))
      · right; rw [inferNames]; simp [List.mem_append]
        exact Or.inr (Or.inr (Or.inr hrd))
  | paren sp inner =>
      rw [validateTypeCore] at h
      rcases evolve_validateType s ctx inner n h with hl | hr
      · exact Or.inl hl
      · right; rw [inferNames]; exact hr
  | typeRef sp nm args =>
      rw [validateTypeCore] at h
      rcases evolve_validateRefBody s ctx sp nm args n h with hl | hr
      · exact Or.inl hl
      · right; rw [inferNames]; exact hr
  | infer sp p =>
      rw [validateTypeCore] at h
      rcases evolve_validateParam s ctx p n h with hl | hr
      · exact Or.inl hl
      · right; rw [inferNames]; exact hr
termination_by (sizeOf t, 0)

theorem evolve_validateList (s : St) (ctx : Ctx) (l : List RTsType) (n : String)
    (h : scopeHasParam (validateTypeList s ctx l).1 n = true) :
    scopeHasParam s n = true ∨ n ∈ inferNamesList l := by
  match l with
  | [] =>
      rw [validateTypeList] at h
      exact Or.inl h
  | t :: ts =>
      rw [validateTypeList] at h
      have h1 := evolve_validateList _ ctx ts n h
      rcases h1 with h1 | hr
      · rcases evolve_validateType s ctx t n h1 with h0 | hr0
        · exact Or.inl h0
        · right; rw [inferNamesList]; exact List.mem_append.mpr (Or.inl hr0)
      · right; rw [inferNamesList]; exact List.mem_append.mpr (Or.inr hr)
termination_by (sizeOf l, 0)

theorem evolve_validateElems (s : St) (ctx : Ctx) (l : List RTsTupleElement) (n : String)
    (h : scopeHasParam (validateTupleElems s ctx l).1 n = true) :
    scopeHasParam s n = true ∨ n ∈ inferNamesElems l := by
  match l with
  | [] =>
      rw [validateTupleElems] at h
      exact Or.inl h
  | .mk sp lab ty :: rest =>
      rw [validateTupleElems] at h
      have h1 := evolve_validateElems _ ctx rest n h
      rcases h1 with h1 | hr
      · rcases evolve_validateType s ctx ty n h1 with h0 | hr0
        · exact Or.inl h0
        · right; rw [inferNamesElems]; exact List.mem_append.mpr (Or.inl hr0)
      · right; rw [inferNamesElems]; exact List.mem_append.mpr (Or.inr hr)
termination_by (sizeOf l, 0)

theorem evolve_validateOpt (s : St) (ctx : Ctx) (o : Option RTsType) (n : String)
    (h : scopeHasParam (validateOptType s ctx o).1 n = true) :
    scopeHasParam s n = true ∨ n ∈ inferNamesOpt o := by
  match o with
  | none =>
      rw [validateOptType] at h
      exact Or.inl h
  | some t =>
      rw [validateOptType] at h
      rcases evolve_validateType s ctx t n h with h0 | hr
      · exact Or.inl h0
      · right; rw [inferNamesOpt]; exact hr
termination_by (sizeOf o, 1)

theorem evolve_validateParam (s : St) (ctx : Ctx) (p : RTsTypeParam) (n : String)
    (h : scopeHasParam (validateTypeParam s ctx p).1 n = true) :
    scopeHasParam s n = true ∨ n ∈ inferNamesParam p := by
  match p with
  | .mk sp name cons dflt =>
      rw [validateTypeParam] at h
      rcases scopeHasParam_registerType _ _ _ _ h with h1 | hname
      · rcases evolve_validateOpt _ _ dflt n h1 with h2 | hrd
        · rcases evolve_validateOpt s _ cons n h2 with h3 | hrc
          · exact Or.inl h3
          · right; rw [inferNamesParam]
            exact List.mem_cons_of_mem _ (List.mem_append.mpr (Or.inl hrc))
        · right; rw [inferNamesParam]
          exact List.mem_cons_of_mem _ (List.mem_append.mpr (Or.inr hrd))
      · right; rw [inferNamesParam, hname]
        exact List.mem_cons_self ..
termination_by (sizeOf p, 2)

theorem evolve_validateInst (s : St) (ctx : Ctx) (i : RInst) (n : String)
    (h : scopeHasParam (validateInst s ctx i).1 n = true) :
    scopeHasParam s n = true ∨ n ∈ inferNamesArgs (some i) := by
  match i with
  | .mk sp ps =>
      rw [validateInst] at h
      rcases evolve_validateList s _ ps n h with h0 | hr
      · exact Or.inl h0
      · right; rw [inferNamesArgs]; exact hr
termination_by (sizeOf i, 1)

theorem evolve_validateRefBody (s : St) (ctx : Ctx) (sp : Span) (nm : REntityName)
    (args : Option RInst) (n : String)
    (h : scopeHasParam (validateTypeRefBody s ctx sp nm args).1 n = true) :
    scopeHasParam s n = true ∨ n ∈ inferNamesArgs args := by
  match args with
  | none =>
      rw [validateTypeRefBody] at h
      rw [scopeHasParam_scope_eq (refDispatch_scope ..) n] at h
      exact Or.inl h
  | some i =>
      rw [validateTypeRefBody] at h
      rw [scopeHasParam_scope_eq (refDispatch_scope ..) n] at h
      exact evolve_validateInst s ctx i n h
termination_by (sizeOf args, 2)

end

theorem refFallback_val (s : St) (ctx : Ctx) (sp : Span) (n : REntityName)
    (ta : Option TyParamInst) (ci rep : Bool) :
    (refFallback s ctx sp n ta ci rep).2
      = Ty.ref sp ctx.module_id n ta { contains_infer_type := ci } := by
  unfold refFallback
  split <;> rfl

/-- When the scope stores no type-parameter placeholder under the looked-up
name, the identifier branch cannot take the placeholder early return: it
always produces a dangling reference that keeps the type arguments. -/
theorem identRefBranch_keeps_args (s : St) (ctx : Ctx) (sp : Span) (i : RIdent)
    (ta : Option TyParamInst) (hsp : scopeHasParam s i.sym = false) :
    ∃ ci, (identRefBranch s ctx sp i ta).2
      = Ty.ref sp ctx.module_id (.ident i) ta { contains_infer_type := ci } := by
  unfold identRefBranch
  dsimp only
  rw [findType_scope_eq (staticCheck_scope s i) ctx.module_id i.sym]
  rcases hft : findType s ctx.module_id i.sym with _ | tys <;> dsimp only
  · split
    · exact ⟨false, refFallback_val ..⟩
    · exact ⟨false, refFallback_val ..⟩
  · rw [scanParams_fst_none tys false (findType_no_param hsp hft)]
    dsimp only
    split
    · exact ⟨(scanParams tys false).2, refFallback_val ..⟩
    · exact ⟨(scanParams tys false).2, refFallback_val ..⟩

/-- An identifier reference head that does not resolve to a stored
type-parameter placeholder keeps its frozen type arguments, so a structural
infer capture inside the arguments survives into the produced value. -/
theorem land_refDispatch_ident (s : St) (ctx : Ctx) (sp : Span) (i : RIdent)
    (ti : TyParamInst) (hti : hasInferTyInst ti = true)
    (hsp : scopeHasParam s i.sym = false) :
    hasInferTy (refDispatch s ctx sp (.ident i) (some ti)).2 = true := by
  obtain ⟨ci, hval⟩ := identRefBranch_keeps_args s ctx sp i (some ti) hsp
  rw [refDispatch]
  split
  · split
    · next elemT heq =>
        rw [hasInferTy]
        cases ti with
        | mk tsp ps =>
            rw [hasInferTyInst] at hti
            rw [TyParamInst.params] at heq
            subst heq
            rw [hasInferTyList, hasInferTyList] at hti
            simpa using hti
    · rw [refFallback_val, hasInferTy, hasInferTyOptInst]
      exact hti
  · rw [hval, hasInferTy, hasInferTyOptInst]
    exact hti

/-- A qualified reference head always falls through to the dangling
reference, keeping its frozen type arguments. -/
theorem land_refDispatch_qual (s : St) (ctx : Ctx) (sp : Span) (l : REntityName)
    (r : RIdent) (ti : TyParamInst) (hti : hasInferTyInst ti = true) :
    hasInferTy (refDispatch s ctx sp (.qualified l r) (some ti)).2 = true := by
  rw [refDispatch, refFallback_val, hasInferTy, hasInferTyOptInst]
  exact hti

theorem refHeadSyms_typeRef_args (sp : Span) (nm : REntityName) (args : Option RInst)
    (m : String) (hm : m ∈ refHeadSymsArgs args) :
    m ∈ refHeadSyms (.typeRef sp nm args) := by
  cases nm <;> (rw [refHeadSyms]; exact List.mem_append.mpr (Or.inr hm))

theorem refHeadSyms_typeRef_head (sp : Span) (i : RIdent) (args : Option RInst) :
    i.sym ∈ refHeadSyms (.typeRef sp (.ident i) args) := by
  rw [refHeadSyms]
  exact List.mem_append.mpr (Or.inl (List.mem_singleton.mpr rfl))

/-- Validation of a node whose capture names all lie in `N` cannot make the
scope hold a placeholder under a name outside `N` that it did not already
hold. -/
theorem scopeHasParam_preserved {s : St} {ctx : Ctx} {t : RTsType} {n : String}
    {N : List String} (hs : scopeHasParam s n = false) (hnN : n ∉ N)
    (hsub : ∀ m ∈ inferNames t, m ∈ N) :
    scopeHasParam (validateType s ctx t).1 n = false := by
  by_contra h'
  rw [Bool.not_eq_false] at h'
  rcases evolve_validateType s ctx t n h' with h0 | hr
  · rw [h0] at hs; cases hs
  · exact hnN (hsub n hr)

mutual

/-- An infer capture in the syntax lands as a structural infer capture in
the elaborated value, provided no identifier reference head involved
resolves to a stored type-parameter placeholder (`N` over-approximates the
capture names that validation may register). -/
theorem land_validateType (s : St) (ctx : Ctx) (N : List String) (t : RTsType)
    (hi : hasInferNode t = true)
    (hN : ∀ m ∈ inferNames t, m ∈ N)
    (hH : ∀ m ∈ refHeadSyms t, scopeHasParam s m = false ∧ m ∉ N) :
    hasInferTy (validateType s ctx t).2 = true := by
  rw [validateType_unfold]
  dsimp only
  rw [hasInferTy_finalize]
  exact land_validateCore s _ N t hi hN hH
termination_by (sizeOf t, 1)

theorem land_validateCore (s : St) (ctx : Ctx) (N : List String) (t : RTsType)
    (hi : hasInferNode t = true)
    (hN : ∀ m ∈ inferNames t, m ∈ N)
    (hH : ∀ m ∈ refHeadSyms t, scopeHasParam s m = false ∧ m ∉ N) :
    hasInferTy (validateTypeCore s ctx t).2 = true := by
  cases t with
  | keyword sp k => rw [hasInferNode] at hi; cases hi
  | array sp e =>
      rw [validateTypeCore]
      dsimp only
      rw [hasInferTy]
      exact land_validateType s ctx N e (by rwa [hasInferNode] at hi)
        (fun m hm => hN m (by rw [inferNames]; exact hm))
        (fun m hm => hH m (by rw [refHeadSyms]; exact hm))
  | tuple sp es =>
      rw [validateTypeCore]
      dsimp only
      rw [hasInferTy]
      exact land_validateElems s ctx N es (by rwa [hasInferNode] at hi)
        (fun m hm => hN m (by rw [inferNames]; exact hm))
        (fun m hm => hH m (by rw [refHeadSyms]; exact hm))
  | union sp ts =>
      rw [validateTypeCore]
      dsimp only
      rw [fixTy, hasInferTy]
      exact hasInferTyList_dedup (land_validateList s ctx N ts
        (by rwa [hasInferNode] at hi)
        (fun m hm => hN m (by rw [inferNames]; exact hm))
        (fun m hm => hH m (by rw [refHeadSyms]; exact hm)))
  | conditional sp a b c d =>
      rw [validateTypeCore]
      dsimp only
      rw [hasInferTy]
      rw [hasInferNode] at hi
      simp only [Bool.or_eq_true] at hi
      have hNa : ∀ m ∈ inferNames a, m ∈ N := by
        intro m hm; apply hN; rw [inferNames]; simp only [List.mem_append]; tauto
      have hNb : ∀ m ∈ inferNames b, m ∈ N := by
        intro m hm; apply hN; rw [inferNames]; simp only [List.mem_append]; tauto
      have hNc : ∀ m ∈ inferNames c, m ∈ N := by
        intro m hm; apply hN; rw [inferNames]; simp only [List.mem_append]; tauto
      have hNd : ∀ m ∈ inferNames d, m ∈ N := by
        intro m hm; apply hN; rw [inferNames]; simp only [List.mem_append]; tauto
      have hHa : ∀ m ∈ refHeadSyms a, scopeHasParam s m = false ∧ m ∉ N := by
        intro m hm; apply hH; rw [refHeadSyms]; simp only [List.mem_append]; tauto
      have hHb : ∀ m ∈ refHeadSyms b,
          scopeHasParam (validateType s ctx a).1 m = false ∧ m ∉ N := by
        intro m hm
        obtain ⟨h1, h2⟩ := hH m (by rw [refHeadSyms]; simp only [List.mem_append]; tauto)
        exact ⟨scopeHasParam_preserved h1 h2 hNa, h2⟩
      have hHc : ∀ m ∈ refHeadSyms c,
          scopeHasParam (validateType (validateType s ctx a).1 ctx b).1 m = false
            ∧ m ∉ N := by
        intro m hm
        obtain ⟨h1, h2⟩ := hH m (by rw [refHeadSyms]; simp only [List.mem_append]; tauto)
        exact ⟨scopeHasParam_preserved (scopeHasParam_preserved h1 h2 hNa) h2 hNb, h2⟩
      have hHd : ∀ m ∈ refHeadSyms d,
          scopeHasParam
            (validateType (validateType (validateType s ctx a).1 ctx b).1 ctx c).1 m
              = false ∧ m ∉ N := by
        intro m hm
        obtain ⟨h1, h2⟩ := hH m (by rw [refHeadSyms]; simp only [List.mem_append]; tauto)
        exact ⟨scopeHasParam_preserved
          (scopeHasParam_preserved (scopeHasParam_preserved h1 h2 hNa) h2 hNb) h2 hNc, h2⟩
      rcases hi with ((ha | hb) | hc) | hd
      · have hl := land_validateType s ctx N a ha hNa hHa
        simp [hl]
      · have hl := land_validateType (validateType s ctx a).1 ctx N b hb hNb hHb
        simp [hl]
      · have hl := land_validateType (validateType (validateType s ctx a).1 ctx b).1
          ctx N c hc hNc hHc
        simp [hl]
      · have hl := land_validateType
          (validateType (validateType (validateType s ctx a).1 ctx b).1 ctx c).1
          ctx N d hd hNd hHd
        simp [hl]
  | paren sp inner =>
      rw [validateTypeCore]
      exact land_validateType s ctx N inner (by rwa [hasInferNode] at hi)
        (fun m hm => hN m (by rw [inferNames]; exact hm))
        (fun m hm => hH m (by rw [refHeadSyms]; exact hm))
  | typeRef sp nm args =>
      rw [validateTypeCore]
      rw [hasInferNode] at hi
      exact land_validateRefBody s ctx N sp nm args hi
        (fun m hm => hN m (by rw [inferNames]; exact hm))
        (fun m hm => hH m (refHeadSyms_typeRef_args sp nm args m hm))
        (fun i hnm => by subst hnm; exact hH i.sym (refHeadSyms_typeRef_head sp i args))
  | infer sp p =>
      rw [validateTypeCore]
      dsimp only
      rw [hasInferTy]
termination_by (sizeOf t, 0)

theorem land_validateRefBody (s : St) (ctx : Ctx) (N : List String) (sp : Span)
    (nm : REntityName) (args : Option RInst)
    (hi : hasInferArgs args = true)
    (hN : ∀ m ∈ inferNamesArgs args, m ∈ N)
    (hH : ∀ m ∈ refHeadSymsArgs args, scopeHasParam s m = false ∧ m ∉ N)
    (hhead : ∀ i, nm = REntityName.ident i →
      scopeHasParam s i.sym = false ∧ i.sym ∉ N) :
    hasInferTy (validateTypeRefBody s ctx sp nm args).2 = true := by
  match args, hi with
  | none, hi =>
      rw [hasInferArgs] at hi
      cases hi
  | some (.mk isp ps), hi =>
      rw [hasInferArgs] at hi
      rw [validateTypeRefBody]
      have hlist : hasInferTyList
          (validateTypeList s { ctx with in_actual_type := true } ps).2 = true :=
        land_validateList s _ N ps hi
          (fun m hm => hN m (by rw [inferNamesArgs]; exact hm))
          (fun m hm => hH m (by rw [refHeadSymsArgs]; exact hm))
      have hinst : hasInferTyInst
          (freezeInst (validateInst s ctx (.mk isp ps)).2) = true := by
        rw [validateInst]
        dsimp only
        rw [freezeInst, hasInferTyInst, hasInferTyList_map_cheap]
        exact hlist
      cases nm with
      | ident id =>
          obtain ⟨hh1, hh2⟩ := hhead id rfl
          have hsp2 : scopeHasParam (validateInst s ctx (.mk isp ps)).1 id.sym
              = false := by
            by_contra h'
            rw [Bool.not_eq_false] at h'
            rcases evolve_validateInst s ctx (.mk isp ps) id.sym h' with h0 | hr
            · rw [hh1] at h0; cases h0
            · exact hh2 (hN id.sym hr)
          exact land_refDispatch_ident _ ctx sp id _ hinst hsp2
      | qualified ql qr =>
          exact land_refDispatch_qual _ ctx sp ql qr _ hinst
termination_by (sizeOf args, 2)


theorem land_validateList (s : St) (ctx : Ctx) (N : List String) (l : List RTsType)
    (hi : hasInferList l = true)
    (hN : ∀ m ∈ inferNamesList l, m ∈ N)
    (hH : ∀ m ∈ refHeadSymsList l, scopeHasParam s m = false ∧ m ∉ N) :
    hasInferTyList (validateTypeList s ctx l).2 = true := by
  match l with
  | [] => rw [hasInferList] at hi; cases hi
  | t :: ts =>
      rw [validateTypeList]
      dsimp only
      rw [hasInferTyList]
      rw [hasInferList] at hi
      simp only [Bool.or_eq_true] at hi
      have hNt : ∀ m ∈ inferNames t, m ∈ N := fun m hm =>
        hN m (by rw [inferNamesList]; exact List.mem_append.mpr (Or.inl hm))
      rcases hi with ht | hts
      · have hl := land_validateType s ctx N t ht hNt
          (fun m hm => hH m (by
            rw [refHeadSymsList]; exact List.mem_append.mpr (Or.inl hm)))
        simp [hl]
      · have hHts : ∀ m ∈ refHeadSymsList ts,
            scopeHasParam (validateType s ctx t).1 m = false ∧ m ∉ N := by
          intro m hm
          obtain ⟨h1, h2⟩ := hH m (by
            rw [refHeadSymsList]; exact List.mem_append.mpr (Or.inr hm))
          exact ⟨scopeHasParam_preserved h1 h2 hNt, h2⟩
        have hl := land_validateList (validateType s ctx t).1 ctx N ts hts
          (fun m hm => hN m (by
            rw [inferNamesList]; exact List.mem_append.mpr (Or.inr hm)))
          hHts
        simp [hl]
termination_by (sizeOf l, 0)

theorem land_validateElems (s : St) (ctx : Ctx) (N : List String)
    (l : List RTsTupleElement)
    (hi : hasInferElems l = true)
    (hN : ∀ m ∈ inferNamesElems l, m ∈ N)
    (hH : ∀ m ∈ refHeadSymsElems l, scopeHasParam s m = false ∧ m ∉ N) :
    hasInferTyElems (validateTupleElems s ctx l).2 = true := by
  match l with
  | [] => rw [hasInferElems] at hi; cases hi
  | .mk sp lab ty :: rest =>
      rw [validateTupleElems]
      dsimp only
      rw [hasInferTyElems]
      rw [hasInferElems] at hi
      simp only [Bool.or_eq_true] at hi
      have hNt : ∀ m ∈ inferNames ty, m ∈ N := fun m hm =>
        hN m (by rw [inferNamesElems]; exact List.mem_append.mpr (Or.inl hm))
      rcases hi with ht | hts
      · have hl := land_validateType s ctx N ty ht hNt
          (fun m hm => hH m (by
            rw [refHeadSymsElems]; exact List.mem_append.mpr (Or.inl hm)))
        simp [hl]
      · have hHts : ∀ m ∈ refHeadSymsElems rest,
            scopeHasParam (validateType s ctx ty).1 m = false ∧ m ∉ N := by
          intro m hm
          obtain ⟨h1, h2⟩ := hH m (by
            rw [refHeadSymsElems]; exact List.mem_append.mpr (Or.inr hm))
          exact ⟨scopeHasParam_preserved h1 h2 hNt, h2⟩
        have hl := land_validateElems (validateType s ctx ty).1 ctx N rest hts
          (fun m hm => hN m (by
            rw [inferNamesElems]; exact List.mem_append.mpr (Or.inr hm)))
          hHts
        simp [hl]
termination_by (sizeOf l, 0)

end

/-- C5: for every conditional type `A extends B ? C : D` whose false branch
`D` contains an `infer X` capture (at any nesting depth), provided no
identifier reference head occurring in `D` either already resolves to a
stored type-parameter placeholder or collides with a capture name
registered while validating `A`, `B`, `C` or `D` (a reference head that
resolves to a placeholder returns the stored placeholder and discards its
validated type arguments, dropping any capture inside them), the
elaborated conditional's own contains-infer-capture metadata flag is left
at its default `false`, while the capture itself survives structurally in
the elaborated false branch, so the conditional value transitively
contains an infer capture and the transitive containment check detects
it. -/
theorem c5_conditional_infer_flag (s : St) (ctx : Ctx) (sp : Span)
    (a b c d : RTsType)
    (hd : hasInferNode d = true)
    (hheads : ∀ n ∈ refHeadSyms d, scopeHasParam s n = false
      ∧ n ∉ inferNames a ∧ n ∉ inferNames b ∧ n ∉ inferNames c
      ∧ n ∉ inferNames d) :
    (tyTopMeta (validateType s ctx
        (.conditional sp a b c d)).2).contains_infer_type = false
    ∧ containsInferType (validateType s ctx (.conditional sp a b c d)).2
        = true := by
  rw [validateType_unfold]
  dsimp only
  rw [tyTopMeta_finalize, containsInfer_finalize]
  rw [validateTypeCore]
  dsimp only
  constructor
  · simp [tyTopMeta]
  · have hland : hasInferTy (validateType
        (validateType (validateType (validateType s
          { ctx with is_not_topmost_type := true } a).1
          { ctx with is_not_topmost_type := true } b).1
          { ctx with is_not_topmost_type := true } c).1
        { ctx with is_not_topmost_type := true } d).2 = true := by
      apply land_validateType _ _ (inferNames d) d hd (fun m hm => hm)
      intro m hm
      obtain ⟨h0, hna, hnb, hnc, hnd⟩ := hheads m hm
      refine ⟨?_, hnd⟩
      exact scopeHasParam_preserved (scopeHasParam_preserved
        (scopeHasParam_preserved h0 hna (fun x hx => hx)) hnb (fun x hx => hx))
        hnc (fun x hx => hx)
    rw [containsInferType]
    have hc := containsInfer_of_hasInferTy _ hland
    simp [hc]

theorem c5_conditional_infer_flag_witness :
    (hasInferNode (RTsType.typeRef 40 (.ident ⟨41, "Foo"⟩)
        (some (.mk 42 [.infer 43 (.mk 44 ⟨45, "X"⟩ none none)]))) = true
      ∧ refHeadSyms (RTsType.typeRef 40 (.ident ⟨41, "Foo"⟩)
          (some (.mk 42 [.infer 43 (.mk 44 ⟨45, "X"⟩ none none)]))) = ["Foo"]
      ∧ scopeHasParam { scope := [] } "Foo" = false
      ∧ inferNames (RTsType.keyword 10 .string) = []
      ∧ inferNames (RTsType.typeRef 40 (.ident ⟨41, "Foo"⟩)
          (some (.mk 42 [.infer 43 (.mk 44 ⟨45, "X"⟩ none none)]))) = ["X"])
    ∧ ((tyTopMeta (validateType { scope := [] } {}
          (.conditional 1 (.keyword 10 .string) (.keyword 20 .number)
            (.keyword 30 .boolean)
            (.typeRef 40 (.ident ⟨41, "Foo"⟩)
              (some (.mk 42 [.infer 43
                (.mk 44 ⟨45, "X"⟩ none none)]))))).2).contains_infer_type = false
      ∧ containsInferType (validateType { scope := [] } {}
          (.conditional 1 (.keyword 10 .string) (.keyword 20 .number)
            (.keyword 30 .boolean)
            (.typeRef 40 (.ident ⟨41, "Foo"⟩)
              (some (.mk 42 [.infer 43
                (.mk 44 ⟨45, "X"⟩ none none)]))))).2 = true) :=
  ⟨⟨by simp [hasInferNode, hasInferArgs, hasInferList],
    by simp [refHeadSyms, refHeadSymsArgs, refHeadSymsList, refHeadSymsParam,
      refHeadSymsOpt],
    rfl,
    by simp [inferNames],
    by simp [inferNames, inferNamesArgs, inferNamesList, inferNamesParam,
      inferNamesOpt]⟩,
   c5_conditional_infer_flag { scope := [] } {} 1 (.keyword 10 .string)
     (.keyword 20 .number) (.keyword 30 .boolean)
     (.typeRef 40 (.ident ⟨41, "Foo"⟩)
       (some (.mk 42 [.infer 43 (.mk 44 ⟨45, "X"⟩ none none)])))
     (by simp [hasInferNode, hasInferArgs, hasInferList])
     (by
       intro n hn
       simp only [refHeadSyms, refHeadSymsArgs, refHeadSymsList,
         refHeadSymsParam, refHeadSymsOpt, List.append_nil, List.nil_append,
         List.mem_singleton, List.mem_append, List.not_mem_nil, or_false,
         false_or] at hn
       subst hn
       refine ⟨rfl, ?_, ?_, ?_, ?_⟩ <;>
         simp [inferNames, inferNamesArgs, inferNamesList, inferNamesParam,
           inferNamesOpt])⟩

end Stc
